import Mathlib

/-!
Verification of the `knowledge_base` repository (first-order-logic knowledge
base with a resolution prover).  The definitions below are a shallow
embedding of the Python sources: `syntax.py` (the `Node` syntax-tree data
model, substitution application, normalization, serialization),
`unification.py` (Robinson unification and substitution composition),
`grammar.py` (the parse actions relevant to equality and private-symbol
checking) and `inference.py` (the resolution prover entry point).
-/

namespace KB

/-! ## Node kinds and operator names (`syntax.py` constants) -/

def CONSTANT : String := "Constant"
def VARIABLE : String := "Variable"
def FUNCTION : String := "Function"
def PREDICATE : String := "Predicate"
def FORMULA : String := "Formula"
def QUANTIFIER : String := "Quantifier"

def NEGATION : String := "Not"
def CONJUNCTION : String := "And"
def DISJUNCTION : String := "Or"
def IMPLICATION : String := "Implies"
def EQUIVALENCE : String := "Equals"

def UNIVERSAL_QUANTIFIER : String := "ForAll"
def EXISTENTIAL_QUANTIFIER : String := "Exists"

/-- Equality sentinel (`syntax.EQUALITY = '_Equality'`). -/
def EQUALITY : String := "_Equality"

/-! ## Syntax tree node

`Node` is a `NamedTuple` in the source with fields `type_` (a string),
`value` (a string or, for quantified formulas, another `Node`) and
`children` (a list of nodes).  The union type of `value` is embedded as a
sum. -/

inductive Node : Type where
  | mk (type_ : String) (value : String ⊕ Node) (children : List Node)
deriving Repr

namespace Node

-- Boolean equality on nodes (the `NamedTuple` equality of the source:
-- componentwise on `type_`, `value` and `children`).
mutual

def beq : Node → Node → Bool
  | .mk t₁ v₁ c₁, .mk t₂ v₂ c₂ =>
    t₁ == t₂ &&
    (match v₁, v₂ with
     | .inl a, .inl b => a == b
     | .inr a, .inr b => beq a b
     | _, _ => false) &&
    beqList c₁ c₂

def beqList : List Node → List Node → Bool
  | [], [] => true
  | a :: as, b :: bs => beq a b && beqList as bs
  | _, _ => false

end



-- Strong induction principle for the nested inductive: a node's property
-- follows from that of its children and of its node-valued `value`.
def indMem (motive : Node → Prop)
    (h : ∀ (t : String) (v : String ⊕ Node) (c : List Node),
        (∀ k, k ∈ c → motive k) → (∀ m, v = Sum.inr m → motive m) →
        motive (Node.mk t v c)) : ∀ n, motive n
  | .mk t v c =>
    h t v c (fun k hk => indMem motive h k) (fun m hm => indMem motive h m)
termination_by n => sizeOf n
decreasing_by
  · have := List.sizeOf_lt_of_mem hk
    simp only [Node.mk.sizeOf_spec]
    omega
  · subst hm
    simp only [Node.mk.sizeOf_spec, Sum.inr.sizeOf_spec]
    omega

theorem beqList_iff_of (c : List Node)
    (ih : ∀ k, k ∈ c → ∀ b, (beq k b = true) ↔ k = b) :
    ∀ c', (beqList c c' = true) ↔ c = c' := by
  induction c with
  | nil =>
    intro c'
    cases c' <;> simp [beqList]
  | cons a as iha =>
    intro c'
    cases c' with
    | nil => simp [beqList]
    | cons b bs =>
      have h1 := ih a (by simp) b
      have h2 := iha (fun k hk b => ih k (by simp [hk]) b) bs
      simp [beqList, h1, h2]

theorem beq_iff : ∀ a b : Node, (beq a b = true) ↔ a = b := by
  intro a
  induction a using indMem with
  | h t v c ihc ihv =>
    intro b
    cases b with
    | mk t' v' c' =>
      have hc := beqList_iff_of c (fun k hk b => ihc k hk b) c'
      cases v with
      | inl s =>
        cases v' <;> simp [beq, hc, and_assoc]
      | inr m =>
        cases v' with
        | inl s' => simp [beq]
        | inr m' => simp [beq, hc, ihv m rfl m', and_assoc]

instance : DecidableEq Node := fun a b => decidable_of_iff _ (beq_iff a b)

def type_ : Node → String
  | .mk t _ _ => t

def value : Node → String ⊕ Node
  | .mk _ v _ => v

def children : Node → List Node
  | .mk _ _ c => c

/-- String value of a node, for nodes whose `value` is a string
(the source compares `node.value` against string constants; a `Node`-valued
`value` never equals a string there). -/
def valueStr : Node → Option String
  | .mk _ (.inl s) _ => some s
  | .mk _ (.inr _) _ => none

/-- `self.value == s` for a string `s`, as the Python comparison behaves
(False when `value` is a `Node`). -/
def valueIs (n : Node) (s : String) : Bool :=
  match n.value with
  | .inl v => v == s
  | .inr _ => false

/-- `self.value == other` for a `T_Value` `other` (string-vs-node comparisons
are `False` in Python). -/
def valueIs2 (n : Node) (other : String ⊕ Node) : Bool :=
  n.value == other

def is_constant (n : Node) : Bool := n.type_ == CONSTANT

def is_variable (n : Node) : Bool := n.type_ == VARIABLE

def is_function (n : Node) : Bool := n.type_ == FUNCTION

def is_predicate (n : Node) : Bool := n.type_ == PREDICATE

def is_equality (n : Node) : Bool := n.is_predicate && n.valueIs EQUALITY

mutual

def is_term : Node → Bool
  | .mk t v c =>
    let n := Node.mk t v c
    (n.is_constant || n.is_variable || n.is_function) && allTerm c

def allTerm : List Node → Bool
  | [] => true
  | k :: ks => is_term k && allTerm ks

end

def is_atom (n : Node) : Bool :=
  n.is_predicate && allTerm n.children

def isFormulaType (n : Node) : Bool := n.type_ == FORMULA

def is_negation (n : Node) : Bool := n.isFormulaType && n.valueIs NEGATION

def is_conjunction (n : Node) : Bool := n.isFormulaType && n.valueIs CONJUNCTION

def is_disjunction (n : Node) : Bool := n.isFormulaType && n.valueIs DISJUNCTION

def is_implication (n : Node) : Bool := n.isFormulaType && n.valueIs IMPLICATION

def is_equivalence (n : Node) : Bool := n.isFormulaType && n.valueIs EQUIVALENCE

def is_quantifier (n : Node) : Bool := n.type_ == QUANTIFIER

def is_quantified (n : Node) : Bool :=
  n.isFormulaType &&
    (match n.value with
     | .inl _ => false
     | .inr v => v.is_quantifier)

def is_literal (n : Node) : Bool :=
  n.is_atom ||
    (n.is_negation &&
      (match n.children with
       | k :: _ => k.is_atom
       | [] => false))

mutual

def is_formula : Node → Bool
  | .mk t v c =>
    let n := Node.mk t v c
    if n.is_atom then true
    else if n.is_negation || n.is_conjunction || n.is_disjunction
            || n.is_implication || n.is_equivalence || n.is_quantified then
      allFormula c
    else false

def allFormula : List Node → Bool
  | [] => true
  | k :: ks => is_formula k && allFormula ks

end

/-- `Node.negate`: strips one negation, or wraps in one.
(`assert len(children) == 1` in the source holds whenever the negation was
constructed by the system.) -/
def negate (n : Node) : Node :=
  if n.is_negation then
    match n.children with
    | k :: _ => k
    | [] => n
  else
    Node.mk FORMULA (.inl NEGATION) [n]

/-! ## Sorting (`Node._sort`, `Node._sort_key`)

`_sort_key` builds a nested tuple of strings; Python compares such tuples
lexicographically.  (Comparing a string against a tuple raises `TypeError`
in Python; the embedded order arbitrarily puts strings first.  Keys of the
same shape — the only comparisons the sortable nodes of this development
give rise to — never hit that case.) -/

inductive SKey : Type where
  | s (v : String)
  | t (l : List SKey)
deriving Repr

mutual

def beqKey : SKey → SKey → Bool
  | .s a, .s b => a == b
  | .t a, .t b => beqKeyList a b
  | _, _ => false

def beqKeyList : List SKey → List SKey → Bool
  | [], [] => true
  | a :: as, b :: bs => beqKey a b && beqKeyList as bs
  | _, _ => false

end

-- Lexicographic string comparison (via the core decidable instance, which
-- evaluates in the kernel).
def strLt (a b : String) : Bool := (String.decLt a b).decide

-- Python's lexicographic tuple comparison: skip equal prefixes, then
-- compare the first differing elements.
mutual

def ltKey : SKey → SKey → Bool
  | .s a, .s b => strLt a b
  | .t a, .t b => ltKeyList a b
  | .s _, .t _ => true
  | .t _, .s _ => false

def ltKeyList : List SKey → List SKey → Bool
  | [], [] => false
  | [], _ :: _ => true
  | _ :: _, [] => false
  | a :: as, b :: bs =>
    if beqKey a b then ltKeyList as bs
    else ltKey a b

end

-- `rv.extend(self.value._sort_key())`: splicing the elements of a key tuple.
def keyElems : SKey → List SKey
  | .t l => l
  | .s x => [.s x]

-- `_sort_key`: `[type_] ++ (value string, or the spliced elements of the
-- value node's key) ++ [child keys]`; a negation sorts by its argument's key.
mutual

def sortKey : Node → SKey
  | .mk t v c =>
    if (Node.mk t v c).is_negation then
      match c with
      | k :: _ => sortKey k
      | [] =>
        -- `children[0]` raises IndexError in the source for a childless
        -- negation; the default key is used as a total stand-in.
        .t (.s t ::
          (match v with
           | .inl s => [SKey.s s]
           | .inr m => keyElems (sortKey m)))
    else
      .t (.s t ::
        (match v with
         | .inl s => [SKey.s s]
         | .inr m => keyElems (sortKey m)) ++ sortKeyList c)

def sortKeyList : List Node → List SKey
  | [] => []
  | k :: ks => sortKey k :: sortKeyList ks

end

-- Python's `sorted` is an ascending stable sort; embedded as a stable
-- insertion sort by `_sort_key`.
def orderedInsert (x : Node) : List Node → List Node
  | [] => [x]
  | y :: ys =>
    if ltKey (sortKey y) (sortKey x) then y :: orderedInsert x ys
    else x :: y :: ys

def insortByKey : List Node → List Node
  | [] => []
  | x :: xs => orderedInsert x (insortByKey xs)

def is_sortable (n : Node) : Bool :=
  n.is_conjunction || n.is_disjunction || n.is_equivalence || n.is_equality

def is_foldable (n : Node) : Bool :=
  n.is_conjunction || n.is_disjunction || n.is_implication
    || n.is_equivalence || n.is_equality

mutual

def sort : Node → Node
  | .mk t v c =>
    let c' := sortList c
    if (Node.mk t v c).is_sortable then Node.mk t v (insortByKey c')
    else Node.mk t v c'

def sortList : List Node → List Node
  | [] => []
  | k :: ks => sort k :: sortList ks

end

/-! ## Normalization (`_unfold`, `_fold`, `normalize`, `denormalize`) -/

-- `_unfold`: splice children that have the parent's own type and value.
def spliceSame (t : String) (v : String ⊕ Node) : List Node → List Node
  | [] => []
  | k :: ks =>
    (if k.type_ == t && k.value == v then k.children else [k])
      ++ spliceSame t v ks

mutual

def unfold : Node → Node
  | .mk t v c =>
    let c' := unfoldList c
    if (Node.mk t v c).is_foldable then Node.mk t v (spliceSame t v c')
    else Node.mk t v c'

def unfoldList : List Node → List Node
  | [] => []
  | k :: ks => unfold k :: unfoldList ks

end

-- Right-associated binary chain of `_fold` (`inner = children.pop(); ...`).
def chainR (t : String) (v : String ⊕ Node) : Node → List Node → Node
  | inner, [] => inner
  | inner, k :: ks => chainR t v (Node.mk t v [k, inner]) ks

mutual

def fold : Node → Node
  | .mk t v c =>
    let c' := foldList c
    if (Node.mk t v c).is_foldable then
      match c'.reverse with
      | [] => Node.mk t v c'   -- `children.pop()` raises IndexError here
      | inner :: rest => chainR t v inner rest
    else Node.mk t v c'

def foldList : List Node → List Node
  | [] => []
  | k :: ks => fold k :: foldList ks

end

/-- `Node.normalize`: unfold, then sort. -/
def normalize (n : Node) : Node := sort (unfold n)

/-- `Node.denormalize`: fold. -/
def denormalize (n : Node) : Node := fold n

-- Legal term shapes per the spec's data model (§3): constants and
-- variables are childless symbol leaves; functions have a symbol head and
-- at least one term argument.
mutual

def legalTerm : Node → Bool
  | .mk t v c =>
    (match v with
     | .inl _ => true
     | .inr _ => false) &&
    (((t == CONSTANT || t == VARIABLE) && c.isEmpty)
      || (t == FUNCTION && !c.isEmpty)) &&
    allLegalTerm c

def allLegalTerm : List Node → Bool
  | [] => true
  | k :: ks => legalTerm k && allLegalTerm ks

end

-- No sortable node anywhere in the tree (`_sort` only descends through
-- children, so this is a children-only condition).
mutual

def noSortable : Node → Bool
  | .mk t v c => !(Node.mk t v c).is_sortable && allNoSortable c

def allNoSortable : List Node → Bool
  | [] => true
  | k :: ks => noSortable k && allNoSortable ks

end

end Node

/-! ## Substitutions (`T_Substitution`) and application (`Node.apply`)

Python substitutions are insertion-ordered dicts with unique keys; embedded
as association lists looked up by first match.  Keys are `T_Value`s (`p.value`
of a variable node, a string for all parser-produced variables). -/

abbrev TValue := String ⊕ Node

abbrev Subst := List (TValue × Node)

namespace Node

def substLookup (σ : Subst) (v : TValue) : Option Node :=
  match σ with
  | [] => none
  | (k, r) :: rest => if k == v then some r else substLookup rest v

mutual

def apply : Node → Subst → Node
  | .mk t v c, σ =>
    if (Node.mk t v c).is_variable then
      match substLookup σ v with
      | some r => r
      | none => Node.mk t v c
    else
      sort (Node.mk t
        (match v with
         | .inl s => .inl s
         | .inr m => .inr (apply m σ))
        (applyList c σ))

def applyList : List Node → Subst → List Node
  | [], _ => []
  | k :: ks, σ => apply k σ :: applyList ks σ

end

/-! ## `occurs_in` (the occurs check)

The source raises `TypeError` when `self` is not a variable; `unify` only
calls it on variables. -/

mutual

def occurs_in (self : Node) : Node → Bool
  | .mk t v c =>
    ((Node.mk t v c).is_function || (Node.mk t v c).is_predicate)
      && anyVarValue self c
    || anyOccurs self c

def anyVarValue (self : Node) : List Node → Bool
  | [] => false
  | k :: ks => (k.is_variable && k.value == self.value) || anyVarValue self ks

def anyOccurs (self : Node) : List Node → Bool
  | [] => false
  | k :: ks => occurs_in self k || anyOccurs self ks

end

end Node

/-! ## Substitution composition (`unification.compose`) -/

namespace Unification

open Node

def containsKey (r : Subst) (v : TValue) : Bool :=
  r.any (fun p => p.1 == v)

/-- The identity-entry test of `_compose`:
`t.is_variable() and t.value == v`. -/
def isIdPair (p : TValue × Node) : Bool :=
  p.2.is_variable && p.2.valueIs2 p.1

/-- `unification._compose` (the source also asserts `t.is_term()` on every
replacement; the assertion does not alter the returned value):
`r1` maps `r`'s replacements through `s`, `s1` keeps the entries of `s`
whose key is not in `r`, and identity entries are dropped from the merge. -/
def composePair (r s : Subst) : Subst :=
  ((r.map (fun p => (p.1, p.2.apply s))) ++
    s.filter (fun p => !(containsKey r p.1))).filter (fun p => !(isIdPair p))

/-- `unification.compose(*args)`: left fold of `_compose` from `{}`. -/
def compose (args : List Subst) : Subst :=
  args.foldl composePair []

/-! ## Robinson unification (`unification.unify`)

The source raises `TypeError` for arguments that are neither terms nor
atoms, and `NotUnifiable` on clashes and occurs-check violations.  The
recursion of the compound case runs on substituted children, so the
embedding carries fuel; `.fuel` is distinct from both error kinds. -/

inductive UErr : Type where
  | typeErr
  | notUnifiable
  | fuel
deriving DecidableEq, Repr

def unify : Nat → Node → Node → Except UErr Subst
  | 0, _, _ => .error .fuel
  | fuel + 1, p, q =>
    if !(p.is_term || p.is_atom) then .error .typeErr
    else if !(q.is_term || q.is_atom) then .error .typeErr
    else if p.is_constant && q.is_constant then
      if p.value == q.value then .ok [] else .error .notUnifiable
    else if p.is_variable then
      if p.occurs_in q then .error .notUnifiable else .ok [(p.value, q)]
    else if q.is_variable then
      if q.occurs_in p then .error .notUnifiable else .ok [(q.value, p)]
    else
      if p.type_ != q.type_ || !(p.value == q.value)
          || p.children.length != q.children.length then
        .error .notUnifiable
      else
        (p.children.zip q.children).foldlM
          (fun rv xy => do
            let μ ← unify fuel (xy.1.apply rv) (xy.2.apply rv)
            pure (compose [rv, μ]))
          []

end Unification

/-! ## Grammar (`grammar.py`): private-symbol check and equality parsing -/

namespace Grammar

open Node

/-- `grammar._is_private_symbol`: for symbol nodes, whether the symbol name
starts with an underscore.  (A `Node`-valued `value` would raise in the
source; such nodes are not symbol-kinded in practice.) -/
def startsWithUnderscore (s : String) : Bool :=
  match s.data with
  | [] => false
  | c :: _ => c == '_'

def isPrivateSymbol (node : Node) : Bool :=
  if node.is_constant || node.is_variable
      || node.is_function || node.is_predicate then
    match node.valueStr with
    | some s => startsWithUnderscore s
    | none => false
  else false

mutual

/-- `grammar._has_private_symbols`, verbatim: `False` for non-`Node`s,
`False` when the node is a private symbol, otherwise `any` over the value
and the children. -/
def hasPrivateSymbols : Node → Bool
  | .mk t v c =>
    if isPrivateSymbol (.mk t v c) then false
    else
      (match v with
       | .inl _ => false
       | .inr m => hasPrivateSymbols m)
      || anyHasPrivate c

def anyHasPrivate : List Node → Bool
  | [] => false
  | k :: ks => hasPrivateSymbols k || anyHasPrivate ks

end

/-- The parse action `binary_operator(syntax.FUNCTION)` attached to
`VALUE_EQUAL` in `build_grammar` (`AtomicFormula`): from the infix token
list it builds `Node(type_=FUNCTION, value=tokens[1], children=tokens[::2])`,
where `tokens[1]` is the standardized operator name `'_Equality'`. -/
def parseEquality (operands : List Node) : Node :=
  Node.mk FUNCTION (.inl EQUALITY) operands

/-- The parse action `negate_binary_operator(syntax.FUNCTION, VALUE_EQUAL)`
attached to `VALUE_NOT_EQUAL`: the same node, negated. -/
def parseInequality (operands : List Node) : Node :=
  (Node.mk FUNCTION (.inl EQUALITY) operands).negate

end Grammar

/-! ## Serialization (`syntax._dump`, `syntax._load`, `dumps`, `loads`)

A serialized node is a YAML/JSON document; the document trees (dicts,
lists, strings) are embedded as `SValue`.  The `yaml`/`json` libraries that
turn documents into text and back are external and assumed faithful. -/

inductive SValue : Type where
  | str (s : String)
  | list (l : List SValue)
  | dict (entries : List (String × SValue))
deriving Repr

namespace Serialization

open Node

mutual

/-- `syntax._dump` on a node: `{type_: {'Value': …, 'Children': […]}}`,
`Children` omitted when empty; compact mode collapses constants and
variables to their bare symbol string. -/
def dumpNode (compact : Bool) : Node → SValue
  | .mk t v c =>
    let dv : SValue :=
      match v with
      | .inl s => .str s
      | .inr m => dumpNode compact m
    let dc : List SValue := dumpList compact c
    if compact && ((Node.mk t v c).is_constant || (Node.mk t v c).is_variable)
    then dv
    else
      .dict [(t, .dict (("Value", dv) ::
        (if dc.isEmpty then [] else [("Children", .list dc)])))]

def dumpList (compact : Bool) : List Node → List SValue
  | [] => []
  | k :: ks => dumpNode compact k :: dumpList compact ks

end

mutual

/-- `syntax._load` on a dict `{type_: {'Value': …, 'Children': […]}}`.
The source looks the keys up by name (`node['Value']`,
`node.get('Children', [])`); documents written by `_dump` always carry
`Value` first and `Children` second, which are the shapes matched here
(other dicts fail to load). -/
def loadDict : List (String × SValue) → Option Node
  | [(t, .dict [("Value", ev)])] =>
    (loadValue ev).map fun v => Node.mk t v []
  | [(t, .dict [("Value", ev), ("Children", .list l)])] =>
    match loadValue ev, loadList l with
    | some v, some c => some (Node.mk t v c)
    | _, _ => none
  | _ => none

def loadValue : SValue → Option (String ⊕ Node)
  | .str s => some (.inl s)
  | .dict d => (loadDict d).map .inr
  | .list _ => none

def loadList : List SValue → Option (List Node)
  | [] => some []
  | x :: xs =>
    match loadValue x, loadList xs with
    | some (.inr n), some ns => some (n :: ns)
    | _, _ => none

end

/-- `syntax.dumps` at document level. -/
def dumps (n : Node) (compact : Bool) : SValue :=
  dumpNode compact n

/-- `syntax.loads` at document level (for a single serialized node): load,
then `normalize`. -/
def loads (v : SValue) : Option Node :=
  match v with
  | .dict d => (loadDict d).map Node.normalize
  | _ => none

end Serialization

/-! ## Concrete nodes used by the witness and counterexample theorems -/

namespace Ex

def vA : Node := .mk VARIABLE (.inl "a") []
def vB : Node := .mk VARIABLE (.inl "b") []
def vX : Node := .mk VARIABLE (.inl "x") []
def vY : Node := .mk VARIABLE (.inl "y") []
def vZ : Node := .mk VARIABLE (.inl "z") []
def cA : Node := .mk CONSTANT (.inl "A") []
def cB : Node := .mk CONSTANT (.inl "B") []
def cP : Node := .mk CONSTANT (.inl "P") []
def fX : Node := .mk PREDICATE (.inl "f") [vX]
def fY : Node := .mk PREDICATE (.inl "f") [vY]
def notFY : Node := .mk FORMULA (.inl NEGATION) [fY]
def fP : Node := .mk PREDICATE (.inl "f") [cP]
def notFP : Node := .mk FORMULA (.inl NEGATION) [fP]

/-- `f(x) & !f(y)` with the conjuncts in canonical (key-equal, stable)
order. -/
def andFxNotFy : Node := .mk FORMULA (.inl CONJUNCTION) [fX, notFY]

/-- `{x ↦ z}`. -/
def rXZ : Subst := [(Sum.inl "x", vZ)]

/-- `{z ↦ y}`. -/
def sZY : Subst := [(Sum.inl "z", vY)]

/-- A conjunction with its children out of canonical order. -/
def andBA : Node := .mk FORMULA (.inl CONJUNCTION) [vB, vA]

/-- A canonical conjunction with a single child. -/
def andSingle : Node := .mk FORMULA (.inl CONJUNCTION) [fX]

/-- An equality atom with its children out of canonical order. -/
def eqBA : Node := .mk PREDICATE (.inl EQUALITY) [vB, vA]

/-- The constant node the parser produces for the input `_P`. -/
def privP : Node := .mk CONSTANT (.inl "_P") []

/-- `f(x) & f(y)`: a well-behaved formula (every foldable node binary). -/
def andFxFy : Node := .mk FORMULA (.inl CONJUNCTION) [fX, fY]

/-- The equality atom `_Equality(A, B)` between two constants. -/
def eqABc : Node := .mk PREDICATE (.inl EQUALITY) [cA, cB]

/-- The equality atom `_Equality(B, A)`: the same operands, swapped. -/
def eqBAc : Node := .mk PREDICATE (.inl EQUALITY) [cB, cA]

end Ex

namespace Node

-- Every foldable node in the tree has at least two children (the legal
-- shape of And/Or/Implies/Equals/equality nodes per the spec's data
-- model; `_fold` crashes on zero children and collapses a single child).
mutual

def foldableArityOk : Node → Bool
  | .mk t v c =>
    (!(Node.mk t v c).is_foldable || decide (2 ≤ c.length))
      && allFoldableArityOk c

def allFoldableArityOk : List Node → Bool
  | [] => true
  | k :: ks => foldableArityOk k && allFoldableArityOk ks

end

/-- The right-associated chain `x₁ ⊕ (x₂ ⊕ (… ⊕ xₘ))` that `_fold` builds
(a proof-side reformulation of `chainR`). -/
def chainOf (t : String) (v : String ⊕ Node) : List Node → Node
  | [] => Node.mk t v []
  | [x] => x
  | x :: xs => Node.mk t v [x, chainOf t v xs]

-- Legal non-equality atoms per the spec's data model (§3): a predicate
-- with a symbol head other than the equality sentinel and at least one
-- legal term argument.  (`unify` treats equality atoms like any other
-- predicate, but `apply` re-sorts their arguments, which breaks the
-- unifier's contract on them; the amended claims quantify over this
-- equality-free fragment.)
def legalAtom : Node → Bool
  | .mk t v c =>
    (t == PREDICATE) &&
    (match v with
     | .inl s => !(s == EQUALITY)
     | .inr _ => false) &&
    !c.isEmpty && allLegalTerm c

/-- A legally-shaped term or non-equality atom: the `unify` inputs over
which the amended unifier claims are stated. -/
def legalTA (n : Node) : Bool := legalTerm n || legalAtom n

-- Number of nodes along the children spine (the measure of the occurs
-- check argument; `value` subnodes are never traversed by `occurs_in`).
mutual

def nodeSize : Node → Nat
  | .mk _ _ c => 1 + listSize c

def listSize : List Node → Nat
  | [] => 0
  | k :: ks => nodeSize k + listSize ks

end

end Node

namespace Unification

/-- The step function of the child fold inside `unify`'s compound case
(named so the fold can be unrolled one step at a time in proofs; it is
definitionally the lambda appearing in `unify`). -/
def unifyFoldF (fuel : Nat) : Subst → Node × Node → Except UErr Subst :=
  fun rv xy => do
    let μ ← unify fuel (xy.1.apply rv) (xy.2.apply rv)
    pure (compose [rv, μ])

/-- `τ` absorbs `σ` pointwise on variables: substituting by `σ` and then
by `τ` is the same as substituting by `τ` alone.  `Absorbs τ σ` is the
classical statement that `τ` factors through `σ` (with witness `τ`
itself), used to state that a unifier returned by `unify` is most
general. -/
def Absorbs (τ σ : Subst) : Prop :=
  ∀ name : String,
    Node.apply (Node.mk VARIABLE (.inl name) []) τ =
      Node.apply (Node.apply (Node.mk VARIABLE (.inl name) []) σ) τ

/-- The invariant bundle proved about every successful `unify` run on
legal equality-free inputs: the returned substitution has pairwise
distinct keys, its replacements are legal terms or atoms (legal terms
whenever both inputs are terms), it unifies the two inputs, and every
no-sortable-ranged unifier of the inputs absorbs it (i.e. it is most
general). -/
def UnifySpec (p q : Node) (σ : Subst) : Prop :=
  ((σ.map Prod.fst).Nodup ∧ (∀ e ∈ σ, Node.legalTA e.2 = true) ∧
    (Node.legalTerm p = true → Node.legalTerm q = true →
      ∀ e ∈ σ, Node.legalTerm e.2 = true)) ∧
  Node.apply p σ = Node.apply q σ ∧
  (∀ τ : Subst, (∀ e ∈ τ, Node.noSortable e.2 = true) →
    Node.apply p τ = Node.apply q τ → Absorbs τ σ)

end Unification

/-! ## CNF conversion (`cnf.py`)

The `cnf.py` in the source tree is an earlier draft: its `convert_to_cnf`
returns a single node (not the `(φ', ρ)` pair that `syntax.Node.to_cnf`
declares and `tests/test_cnf.py` expects), its `standardize_variables`
and `skolemize` call `node.get_quantifier()` — a method `syntax.Node`
does not have (`syntax.py` only defines `get_quantifier_type` and
`get_quantified_variable`) — and `propagate_negation` calls
`child.value.as_quantifier()`, also nonexistent.  Python raises
`AttributeError` at those calls, and the draft's `try/except ValueError`
does not catch it.  Exceptions are embedded as `Except`; the `WalkState`
argument is dropped from the embedding because no pass that can execute
before the unconditional `AttributeError` reads or writes it.  The walk
recurses on rewritten (non-structural) nodes, so it carries fuel;
exhaustion is a distinct error kind. -/

namespace Cnf

inductive PyErr : Type where
  | attributeError
  | valueError
  | assertionError
  | indexError
  | keyError
  | fuelExhausted
deriving DecidableEq, Repr

/-- `eliminate_biconditional` (cnf.py:39-57): `A <=> B` becomes
`(A => B) & (B => A)`; `a, b = node.children` raises `ValueError`
unless there are exactly two children. -/
def eliminate_biconditional (node : Node) : Except PyErr Node :=
  if node.valueIs EQUIVALENCE then
    match node.children with
    | [a, b] =>
      .ok (Node.mk FORMULA (.inl CONJUNCTION)
        [Node.mk FORMULA (.inl IMPLICATION) [a, b],
         Node.mk FORMULA (.inl IMPLICATION) [b, a]])
    | _ => .error .valueError
  else .ok node

/-- `eliminate_implication` (cnf.py:60-76): `A => B` becomes `!A | B`. -/
def eliminate_implication (node : Node) : Except PyErr Node :=
  if node.valueIs IMPLICATION then
    match node.children with
    | [a, b] => .ok (Node.mk FORMULA (.inl DISJUNCTION) [a.negate, b])
    | _ => .error .valueError
  else .ok node

/-- `propagate_negation` (cnf.py:79-131): double negation, De Morgan,
and quantifier flips.  The quantifier branch calls
`child.value.as_quantifier()`, which `syntax.Node` does not define, so
a negation whose child is a quantified formula (node-valued `value`)
raises `AttributeError`. -/
def propagate_negation (node : Node) : Except PyErr Node :=
  if node.valueIs NEGATION then
    match node.children with
    | [child] =>
      if child.valueIs NEGATION then
        match child.children with
        | k :: _ => .ok k
        | [] => .error .indexError
      else if child.valueIs CONJUNCTION then
        .ok (Node.mk FORMULA (.inl DISJUNCTION)
          (child.children.map Node.negate))
      else if child.valueIs DISJUNCTION then
        .ok (Node.mk FORMULA (.inl CONJUNCTION)
          (child.children.map Node.negate))
      else
        match child.value with
        | .inl _ => .ok node
        | .inr _ => .error .attributeError
    | _ => .error .assertionError
  else .ok node

/-- `standardize_variables` (cnf.py:134-170): its first statement is
`value, name = node.get_quantifier()`, and `syntax.Node` has no
`get_quantifier` method, so every call raises `AttributeError` (the
surrounding `except ValueError` does not catch it); the rest of the
function is unreachable. -/
def standardize_variables (node : Node) : Except PyErr Node :=
  .error .attributeError

/-- `skolemize` (cnf.py:173-222): begins with the same
`node.get_quantifier()` call, so every call raises `AttributeError`. -/
def skolemize (node : Node) : Except PyErr Node :=
  .error .attributeError

/-- `drop_quantifiers` (cnf.py:225-245). -/
def drop_quantifiers (node : Node) : Except PyErr Node :=
  if node.type_ == FORMULA then
    match node.value with
    | .inr v =>
      if v.type_ == QUANTIFIER then
        match node.children with
        | [k] => .ok k
        | _ => .error .assertionError
      else .ok node
    | .inl _ => .ok node
  else .ok node

/-- `other = next(x for x in node.children if x is not child)`
(cnf.py:259): the source filters by object identity; the embedding uses
structural inequality (this pass is unreachable: the pipeline raises at
`standardize_variables` first).  An exhausted `next` raises
`StopIteration`, embedded as an error. -/
def firstOther (child : Node) : List Node → Option Node
  | [] => none
  | x :: xs => if x = child then firstOther child xs else some x

def distLoop (siblings : List Node) : List Node → Except PyErr (Option Node)
  | [] => .ok none
  | child :: rest =>
    match firstOther child siblings with
    | none => .error .valueError
    | some other =>
      if child.valueIs CONJUNCTION then
        match child.children with
        | [a, b] =>
          .ok (some (Node.mk FORMULA (.inl CONJUNCTION)
            [Node.mk FORMULA (.inl DISJUNCTION) [a, other],
             Node.mk FORMULA (.inl DISJUNCTION) [b, other]]))
        | _ => .error .valueError
      else distLoop siblings rest

/-- `distribute_conjunction` (cnf.py:248-268). -/
def distribute_conjunction (node : Node) : Except PyErr Node :=
  if node.valueIs DISJUNCTION then
    match distLoop node.children node.children with
    | .error e => .error e
    | .ok (some rv) => .ok rv
    | .ok none => .ok node
  else .ok node

-- `walk` (cnf.py:298-330): apply `f` to the node, then recurse into the
-- rewritten node's value and children and rebuild.
mutual

def walkNode (f : Node → Except PyErr Node) : Nat → Node → Except PyErr Node
  | 0, _ => .error .fuelExhausted
  | fuel + 1, n =>
    match f n with
    | .error e => .error e
    | .ok (.mk t v c) =>
      match (match v with
             | .inl s => Except.ok (Sum.inl s : String ⊕ Node)
             | .inr m => (walkNode f fuel m).map Sum.inr) with
      | .error e => .error e
      | .ok v' =>
        match walkList f fuel c with
        | .error e => .error e
        | .ok c' => .ok (Node.mk t v' c')

def walkList (f : Node → Except PyErr Node) :
    Nat → List Node → Except PyErr (List Node)
  | _, [] => .ok []
  | 0, _ :: _ => .error .fuelExhausted
  | fuel + 1, k :: ks =>
    match walkNode f fuel k with
    | .error e => .error e
    | .ok k' =>
      match walkList f fuel ks with
      | .error e => .error e
      | .ok ks' => .ok (k' :: ks')

end

/-- `convert_to_cnf` (cnf.py:14-36): the seven passes in order, each as
a full walk (the debug `print` is dropped).  Note the draft returns a
single node, not the `(φ', ρ)` pair its callers and tests expect. -/
def convert_to_cnf (fuel : Nat) (node : Node) : Except PyErr Node :=
  match walkNode eliminate_biconditional fuel node with
  | .error e => .error e
  | .ok n1 =>
    match walkNode eliminate_implication fuel n1 with
    | .error e => .error e
    | .ok n2 =>
      match walkNode propagate_negation fuel n2 with
      | .error e => .error e
      | .ok n3 =>
        match walkNode standardize_variables fuel n3 with
        | .error e => .error e
        | .ok n4 =>
          match walkNode skolemize fuel n4 with
          | .error e => .error e
          | .ok n5 =>
            match walkNode drop_quantifiers fuel n5 with
            | .error e => .error e
            | .ok n6 => walkNode distribute_conjunction fuel n6

end Cnf

/-! ## Resolution prover (`inference.py`)

`infer` first converts every premise and the negated conclusion to CNF:
`f, subst = k.to_cnf()`.  `syntax.Node.to_cnf` returns
`cnf.convert_to_cnf(self)` — with the draft `cnf.py` this either raises
(see above) or returns a single `Node`, a 3-field named tuple, whose
unpacking into the 2-tuple `f, subst` raises `ValueError`.  Either way
the loop body raises on its first iteration (the iterated sequence
`(*premises, conclusion.negate())` is never empty), so everything after
the loop — including the `return {}` for empty premises and the whole
saturation loop — is unreachable.  The saturation loop also iterates
`frozenset`s, whose order Python leaves unspecified, so the embedding
quantifies over every possible behavior of that unreachable code via
the `saturation` parameter instead of fixing one. -/

namespace Inference

/-- One iteration of the clause-collection loop (inference.py:25-35):
the well-formedness check (`raise ValueError`), then
`f, subst = k.to_cnf()`.  The clause accumulation below the unpacking
is unreachable and therefore dropped. -/
def processOne (fuel : Nat) (k : Node) : Except Cnf.PyErr Unit :=
  if !k.is_formula then .error .valueError
  else
    match Cnf.convert_to_cnf fuel k with
    | .error e => .error e
    | .ok _ => .error .valueError

/-- `infer` (inference.py:17-88), with the unreachable saturation loop
abstracted as a parameter (see the section comment). -/
def inferWith
    (saturation : List Node → Node → Except Cnf.PyErr (Option Subst))
    (fuel : Nat) (premises : List Node) (conclusion : Node) :
    Except Cnf.PyErr (Option Subst) :=
  match (premises ++ [conclusion.negate]).foldlM
      (fun _ k => processOne fuel k) () with
  | .error e => .error e
  | .ok _ =>
    if premises.isEmpty then .ok (some [])
    else saturation premises conclusion

-- `Node.eval` (syntax.py:488-524) with Boolean-valued keyword
-- arguments, as `utils.truth_table` supplies them (symbol name ↦ Bool;
-- function/predicate symbols fall back to the default
-- `lambda *args: all(args)`).  A missing symbol raises `KeyError`; the
-- implication/equivalence cases recurse through `_fold`, so the
-- embedding carries fuel.
mutual

def eval (env : String → Option Bool) : Nat → Node → Except Cnf.PyErr Bool
  | 0, _ => .error .fuelExhausted
  | fuel + 1, n =>
    if n.is_equality then
      match evalList env fuel n.children with
      | .error e => .error e
      | .ok [a, b] => .ok (a == b)
      | .ok _ => .error .valueError
    else if n.is_function || n.is_predicate then
      match evalList env fuel n.children with
      | .error e => .error e
      | .ok args => .ok (args.all id)
    else if n.is_quantified || n.is_quantifier then
      match n.children with
      | k :: _ => eval env fuel k
      | [] => .error .indexError
    else if n.is_variable || n.is_constant then
      match n.value with
      | .inl s =>
        match env s with
        | some b => .ok b
        | none => .error .keyError
      | .inr _ => .error .keyError
    else if n.is_negation then
      match n.children with
      | k :: _ =>
        match eval env fuel k with
        | .error e => .error e
        | .ok b => .ok (!b)
      | [] => .error .indexError
    else if n.is_conjunction then
      match evalList env fuel n.children with
      | .error e => .error e
      | .ok args => .ok (args.all id)
    else if n.is_disjunction then
      match evalList env fuel n.children with
      | .error e => .error e
      | .ok args => .ok (args.any id)
    else if n.is_implication then
      match (n.fold).children with
      | [x, y] =>
        match eval env fuel x with
        | .error e => .error e
        | .ok a =>
          match eval env fuel y with
          | .error e => .error e
          | .ok b => .ok (!a || b)
      | _ => .error .valueError
    else if n.is_equivalence then
      match (n.fold).children with
      | [x, y] =>
        match eval env fuel x with
        | .error e => .error e
        | .ok a =>
          match eval env fuel y with
          | .error e => .error e
          | .ok b => .ok ((!a || b) && (a || !b))
      | _ => .error .valueError
    else .error .assertionError

def evalList (env : String → Option Bool) :
    Nat → List Node → Except Cnf.PyErr (List Bool)
  | _, [] => .ok []
  | 0, _ :: _ => .error .fuelExhausted
  | fuel + 1, k :: ks =>
    match eval env fuel k with
    | .error e => .error e
    | .ok b =>
      match evalList env fuel ks with
      | .error e => .error e
      | .ok bs => .ok (b :: bs)

end

/-- Semantic entailment as the repository itself checks it
(`utils.truth_table` over `Node.eval`): under every Boolean valuation
of the symbols that makes all premises true, the goal is true. -/
def EntailsB (premises : List Node) (g : Node) (fuel : Nat) : Prop :=
  ∀ env : String → Option Bool,
    (∀ p ∈ premises, eval env fuel p = .ok true) →
    eval env fuel g = .ok true

end Inference

/-! ## Helper lemmas -/

namespace Node

theorem foldList_length (c : List Node) : (foldList c).length = c.length := by
  induction c with
  | nil => rfl
  | cons k ks ih => rw [foldList, List.length_cons, List.length_cons, ih]

theorem tvalue_beq_self (v : String ⊕ Node) : (v == v) = true := by
  cases v with
  | inl a => show (a == a) = true; simp
  | inr b => show (b == b) = true; simp

theorem unfold_mk (t : String) (v : String ⊕ Node) (c : List Node) :
    unfold (Node.mk t v c) =
      if (Node.mk t v c).is_foldable then
        Node.mk t v (spliceSame t v (unfoldList c))
      else Node.mk t v (unfoldList c) := rfl

theorem fold_mk (t : String) (v : String ⊕ Node) (c : List Node) :
    fold (Node.mk t v c) =
      if (Node.mk t v c).is_foldable then
        match (foldList c).reverse with
        | [] => Node.mk t v (foldList c)
        | inner :: rest => chainR t v inner rest
      else Node.mk t v (foldList c) := rfl

theorem is_foldable_congr (t : String) (v : String ⊕ Node)
    (c c' : List Node) :
    (Node.mk t v c).is_foldable = (Node.mk t v c').is_foldable := rfl

theorem chainOf_cons (t : String) (v : String ⊕ Node) (x : Node)
    (xs : List Node) (h : xs ≠ []) :
    chainOf t v (x :: xs) = Node.mk t v [x, chainOf t v xs] := by
  cases xs with
  | nil => exact absurd rfl h
  | cons y ys => rfl

theorem chainOf_append_pack (t : String) (v : String ⊕ Node) (k inner : Node) :
    ∀ L : List Node,
      chainOf t v (L ++ [Node.mk t v [k, inner]]) =
        chainOf t v (L ++ [k, inner]) := by
  intro L
  induction L with
  | nil => rfl
  | cons x L' ih =>
    rw [List.cons_append, List.cons_append,
      chainOf_cons t v x _ (by simp),
      chainOf_cons t v x _ (by simp), ih]

theorem chainR_eq_chainOf (t : String) (v : String ⊕ Node) :
    ∀ (rest : List Node) (inner : Node),
      chainR t v inner rest = chainOf t v (rest.reverse ++ [inner]) := by
  intro rest
  induction rest with
  | nil => intro inner; rfl
  | cons k ks ih =>
    intro inner
    rw [chainR, ih (Node.mk t v [k, inner]), chainOf_append_pack]
    simp

theorem spliceSame_append (t : String) (v : String ⊕ Node) (a b : List Node) :
    spliceSame t v (a ++ b) = spliceSame t v a ++ spliceSame t v b := by
  induction a with
  | nil => rfl
  | cons x xs ih => rw [List.cons_append, spliceSame, spliceSame, ih]; simp

theorem unfold_chainOf (t : String) (v : String ⊕ Node)
    (hf : (Node.mk t v ([] : List Node)).is_foldable = true) :
    ∀ l : List Node, 2 ≤ l.length →
      unfold (chainOf t v l) =
        Node.mk t v (spliceSame t v (unfoldList l)) := by
  intro l
  induction l with
  | nil => intro h; simp at h
  | cons x xs ih =>
    intro hlen
    cases xs with
    | nil => simp at hlen
    | cons y ys =>
      cases ys with
      | nil =>
        rw [chainOf_cons t v x [y] (by simp)]
        rw [unfold_mk,
          if_pos (show (Node.mk t v [x, chainOf t v [y]]).is_foldable = true
            from hf)]
        rfl
      | cons z zs =>
        rw [chainOf_cons t v x (y :: z :: zs) (by simp)]
        rw [unfold_mk,
          if_pos (show (Node.mk t v
              [x, chainOf t v (y :: z :: zs)]).is_foldable = true from hf)]
        have hrec := ih (by simp)
        have e : unfoldList [x, chainOf t v (y :: z :: zs)] =
            [unfold x, unfold (chainOf t v (y :: z :: zs))] := rfl
        rw [e, hrec]
        have e2 : spliceSame t v [unfold x,
            Node.mk t v (spliceSame t v (unfoldList (y :: z :: zs)))] =
            (if (unfold x).type_ == t && (unfold x).value == v
             then (unfold x).children else [unfold x]) ++
              (spliceSame t v (unfoldList (y :: z :: zs)) ++ []) := by
          rw [spliceSame, spliceSame, spliceSame]
          simp [Node.type_, Node.value, Node.children, tvalue_beq_self]
        rw [e2]
        have e3 : unfoldList (x :: y :: z :: zs) =
            unfold x :: unfoldList (y :: z :: zs) := rfl
        rw [e3, spliceSame]
        simp

theorem unfoldList_foldList (c : List Node)
    (ih : ∀ k ∈ c, unfold (fold k) = unfold k) :
    unfoldList (foldList c) = unfoldList c := by
  induction c with
  | nil => rfl
  | cons k ks ihk =>
    have h1 := ih k (by simp)
    have h2 := ihk (fun j hj => ih j (by simp [hj]))
    show unfold (fold k) :: unfoldList (foldList ks) = _
    rw [h1, h2]
    rfl

theorem unfold_fold (n : Node) (h : foldableArityOk n = true) :
    unfold (fold n) = unfold n := by
  induction n using Node.indMem with
  | h t v c ihc ihv =>
    have harity : (!(Node.mk t v c).is_foldable || decide (2 ≤ c.length))
        = true ∧ allFoldableArityOk c = true := by
      have e : foldableArityOk (Node.mk t v c) =
          ((!(Node.mk t v c).is_foldable || decide (2 ≤ c.length))
            && allFoldableArityOk c) := rfl
      rw [e] at h
      exact And.intro (by simp_all) (by simp_all)
    have hmem : ∀ k ∈ c, foldableArityOk k = true := by
      have := harity.2
      clear harity ihc ihv h
      induction c with
      | nil => intro k hk; simp at hk
      | cons a as iha =>
        intro k hk
        have e : allFoldableArityOk (a :: as) =
            (foldableArityOk a && allFoldableArityOk as) := rfl
        rw [e] at this
        simp only [Bool.and_eq_true] at this
        rcases List.mem_cons.mp hk with hk1 | hk2
        · subst hk1; exact this.1
        · exact iha this.2 k hk2
    have ihs : ∀ k ∈ c, unfold (fold k) = unfold k :=
      fun k hk => ihc k hk (hmem k hk)
    by_cases hf : (Node.mk t v c).is_foldable = true
    · have hlen : 2 ≤ c.length := by
        have := harity.1
        rw [hf] at this
        simpa using this
      have hlen' : 2 ≤ (foldList c).length := by rw [foldList_length]; exact hlen
      rw [fold_mk, if_pos hf]
      have hrev : (foldList c).reverse ≠ [] := by
        intro hcon
        rw [List.reverse_eq_nil_iff] at hcon
        have hlc := foldList_length c
        rw [hcon] at hlc
        simp at hlc
        omega
      cases hr : (foldList c).reverse with
      | nil => exact absurd hr hrev
      | cons inner rest =>
        have hc' : rest.reverse ++ [inner] = foldList c := by
          have hrr := congrArg List.reverse hr
          simp at hrr
          exact hrr.symm
        show Node.unfold (chainR t v inner rest) = _
        rw [chainR_eq_chainOf, hc']
        rw [unfold_chainOf t v (by rw [← is_foldable_congr t v c []]; exact hf)
          (foldList c) hlen']
        rw [unfoldList_foldList c ihs]
        rw [unfold_mk, if_pos hf]
    · rw [fold_mk, if_neg hf, unfold_mk, unfold_mk]
      rw [show (Node.mk t v (foldList c)).is_foldable
            = (Node.mk t v c).is_foldable from rfl]
      rw [if_neg hf, if_neg hf]
      rw [unfoldList_foldList c ihs]

theorem normalize_denormalize (n : Node) (h : foldableArityOk n = true) :
    normalize (denormalize n) = normalize n := by
  rw [normalize, normalize, denormalize, unfold_fold n h]

theorem tvalue_beq_iff (a b : TValue) : (a == b) = true ↔ a = b := by
  cases a with
  | inl x =>
    cases b with
    | inl y =>
      show (x == y) = true ↔ _
      simp
    | inr y =>
      show false = true ↔ _
      simp
  | inr x =>
    cases b with
    | inl y =>
      show false = true ↔ _
      simp
    | inr y =>
      show (x == y) = true ↔ _
      constructor
      · intro h
        exact congrArg Sum.inr (of_decide_eq_true h)
      · intro h
        injection h with h
        exact decide_eq_true h

theorem substLookup_mem {σ : Subst} {k : TValue} {u : Node}
    (h : substLookup σ k = some u) : (k, u) ∈ σ := by
  induction σ with
  | nil => simp [substLookup] at h
  | cons p rest ih =>
    rw [substLookup] at h
    by_cases hk : (p.1 == k) = true
    · rw [if_pos hk] at h
      have : p.1 = k := (tvalue_beq_iff p.1 k).mp hk
      have : p = (k, u) := by
        cases p
        simp_all
      rw [this]
      exact List.mem_cons_self _ _
    · rw [if_neg hk] at h
      exact List.mem_cons_of_mem p (ih h)

theorem substLookup_eq_none_iff (σ : Subst) (k : TValue) :
    substLookup σ k = none ↔ ∀ p ∈ σ, p.1 ≠ k := by
  induction σ with
  | nil => simp [substLookup]
  | cons p rest ih =>
    rw [substLookup]
    by_cases hk : (p.1 == k) = true
    · rw [if_pos hk]
      have hpk := (tvalue_beq_iff p.1 k).mp hk
      simp [hpk]
    · rw [if_neg hk]
      have hpk : p.1 ≠ k := fun h => hk ((tvalue_beq_iff p.1 k).mpr h)
      simp [ih, hpk]

theorem substLookup_map (f : Node → Node) (σ : Subst) (k : TValue) :
    substLookup (σ.map (fun p => (p.1, f p.2))) k =
      (substLookup σ k).map f := by
  induction σ with
  | nil => rfl
  | cons p rest ih =>
    rw [List.map_cons, substLookup, substLookup]
    by_cases hk : (p.1 == k) = true
    · rw [if_pos hk, if_pos hk]
      rfl
    · rw [if_neg hk, if_neg hk, ih]

theorem substLookup_append (a b : Subst) (k : TValue) :
    substLookup (a ++ b) k =
      match substLookup a k with
      | some u => some u
      | none => substLookup b k := by
  induction a with
  | nil => rfl
  | cons p rest ih =>
    rw [List.cons_append, substLookup, substLookup]
    by_cases hk : (p.1 == k) = true
    · rw [if_pos hk, if_pos hk]
    · rw [if_neg hk, if_neg hk, ih]

theorem substLookup_filter_of_nodup (q : TValue × Node → Bool) :
    ∀ (σ : Subst), (σ.map Prod.fst).Nodup → ∀ k : TValue,
      substLookup (σ.filter q) k =
        match substLookup σ k with
        | some u => if q (k, u) then some u else none
        | none => none := by
  intro σ
  induction σ with
  | nil => intro _ k; rfl
  | cons p rest ih =>
    intro hn k
    have hn' : (rest.map Prod.fst).Nodup := by
      rw [List.map_cons] at hn
      exact hn.of_cons
    rw [substLookup, List.filter]
    by_cases hk : (p.1 == k) = true
    · have hpk := (tvalue_beq_iff p.1 k).mp hk
      have hrest : substLookup rest k = none := by
        rw [substLookup_eq_none_iff]
        intro p' hp' hcon
        rw [List.map_cons] at hn
        have : p'.1 ∈ rest.map Prod.fst := List.mem_map_of_mem Prod.fst hp'
        rw [hcon, ← hpk] at this
        exact (List.nodup_cons.mp hn).1 this
      rw [if_pos hk]
      cases hq : q p with
      | true =>
        rw [substLookup, if_pos hk]
        have : q (k, p.2) = true := by
          rw [← hpk]
          cases p
          exact hq
        simp [this]
      | false =>
        rw [ih hn' k, hrest]
        have : q (k, p.2) = false := by
          rw [← hpk]
          cases p
          exact hq
        simp [this]
    · rw [if_neg hk]
      cases hq : q p with
      | true =>
        rw [substLookup, if_neg hk, ih hn' k]
      | false =>
        rw [ih hn' k]

theorem substLookup_filterKey (r : Subst) :
    ∀ (s : Subst) (k : TValue),
      substLookup (s.filter (fun p => !(Unification.containsKey r p.1))) k =
        if Unification.containsKey r k then none else substLookup s k := by
  intro s
  induction s with
  | nil =>
    intro k
    cases h : Unification.containsKey r k <;> simp [substLookup]
  | cons p rest ih =>
    intro k
    rw [List.filter]
    by_cases hk : (p.1 == k) = true
    · have hpk := (tvalue_beq_iff p.1 k).mp hk
      cases hc : Unification.containsKey r p.1 with
      | true =>
        rw [show Unification.containsKey r k = true from hpk ▸ hc]
        simp only [Bool.not_true]
        rw [ih k, show Unification.containsKey r k = true from hpk ▸ hc]
        simp
      | false =>
        rw [show Unification.containsKey r k = false from hpk ▸ hc]
        simp only [Bool.not_false]
        rw [substLookup, substLookup, if_pos hk, if_pos hk]
        simp
    · cases hc : Unification.containsKey r p.1 with
      | true =>
        simp only [Bool.not_true]
        rw [ih k, substLookup, if_neg hk]
      | false =>
        simp only [Bool.not_false]
        rw [substLookup, if_neg hk, ih k, substLookup, if_neg hk]

theorem containsKey_iff_mem (σ : Subst) (k : TValue) :
    Unification.containsKey σ k = true ↔ k ∈ σ.map Prod.fst := by
  rw [Unification.containsKey, List.any_eq_true]
  constructor
  · rintro ⟨p, hp, hbeq⟩
    have := (tvalue_beq_iff p.1 k).mp hbeq
    rw [← this]
    exact List.mem_map_of_mem Prod.fst hp
  · intro h
    rcases List.mem_map.mp h with ⟨p, hp, hfst⟩
    exact ⟨p, hp, (tvalue_beq_iff p.1 k).mpr hfst⟩

theorem allNoSortable_mem {c : List Node} (h : allNoSortable c = true) :
    ∀ k ∈ c, noSortable k = true := by
  induction c with
  | nil => intro k hk; simp at hk
  | cons a as ih =>
    intro k hk
    have e : allNoSortable (a :: as) = (noSortable a && allNoSortable as) :=
      rfl
    rw [e, Bool.and_eq_true] at h
    rcases List.mem_cons.mp hk with h1 | h2
    · rw [h1]; exact h.1
    · exact ih h.2 k h2

theorem allLegalTerm_mem {c : List Node} (h : allLegalTerm c = true) :
    ∀ k ∈ c, legalTerm k = true := by
  induction c with
  | nil => intro k hk; simp at hk
  | cons a as ih =>
    intro k hk
    have e : allLegalTerm (a :: as) = (legalTerm a && allLegalTerm as) := rfl
    rw [e, Bool.and_eq_true] at h
    rcases List.mem_cons.mp hk with h1 | h2
    · rw [h1]; exact h.1
    · exact ih h.2 k h2

theorem sortList_eq_of (c : List Node) (ih : ∀ k ∈ c, sort k = k) :
    sortList c = c := by
  induction c with
  | nil => rfl
  | cons a as iha =>
    rw [sortList, ih a (by simp), iha (fun k hk => ih k (by simp [hk]))]

theorem sort_eq_of_noSortable : ∀ n, noSortable n = true → sort n = n := by
  intro n
  induction n using indMem with
  | h t v c ihc ihv =>
    intro h
    have e : noSortable (Node.mk t v c) =
        (!(Node.mk t v c).is_sortable && allNoSortable c) := rfl
    rw [e, Bool.and_eq_true] at h
    have es : sort (Node.mk t v c) =
        if (Node.mk t v c).is_sortable then
          Node.mk t v (insortByKey (sortList c))
        else Node.mk t v (sortList c) := rfl
    rw [es, if_neg (by simp_all)]
    rw [sortList_eq_of c (fun k hk =>
      ihc k hk (allNoSortable_mem h.2 k hk))]

theorem allNoSortable_iff (c : List Node) :
    allNoSortable c = true ↔ ∀ k ∈ c, noSortable k = true := by
  constructor
  · exact allNoSortable_mem
  · intro h
    induction c with
    | nil => rfl
    | cons a as ih =>
      have e : allNoSortable (a :: as) = (noSortable a && allNoSortable as) :=
        rfl
      rw [e, h a (by simp), ih (fun k hk => h k (by simp [hk]))]
      rfl

theorem allLegalTerm_iff (c : List Node) :
    allLegalTerm c = true ↔ ∀ k ∈ c, legalTerm k = true := by
  constructor
  · exact allLegalTerm_mem
  · intro h
    induction c with
    | nil => rfl
    | cons a as ih =>
      have e : allLegalTerm (a :: as) = (legalTerm a && allLegalTerm as) :=
        rfl
      rw [e, h a (by simp), ih (fun k hk => h k (by simp [hk]))]
      rfl

theorem legalTerm_inr_false (t : String) (m : Node) (c : List Node) :
    legalTerm (Node.mk t (.inr m) c) = false := rfl

theorem legalTerm_inl_eq (t sname : String) (c : List Node) :
    legalTerm (Node.mk t (.inl sname) c) =
      ((((t == CONSTANT || t == VARIABLE) && c.isEmpty)
         || (t == FUNCTION && !c.isEmpty)) &&
       allLegalTerm c) := by
  have e : legalTerm (Node.mk t (.inl sname) c) =
      (true &&
       (((t == CONSTANT || t == VARIABLE) && c.isEmpty)
         || (t == FUNCTION && !c.isEmpty)) &&
       allLegalTerm c) := rfl
  rw [e, Bool.true_and]

theorem noSortable_of_legalTerm : ∀ n, legalTerm n = true →
    noSortable n = true := by
  intro n
  induction n using indMem with
  | h t v c ihc ihv =>
    intro h
    cases v with
    | inr m => rw [legalTerm_inr_false] at h; exact absurd h (by simp)
    | inl sname =>
      rw [legalTerm_inl_eq] at h
      simp only [Bool.and_eq_true, Bool.or_eq_true] at h
      have hkids : allNoSortable c = true := by
        rw [allNoSortable_iff]
        intro k hk
        exact ihc k hk (allLegalTerm_mem h.2 k hk)
      have ht : t = CONSTANT ∨ t = VARIABLE ∨ t = FUNCTION := by
        rcases h.1 with ⟨h1, _⟩ | ⟨h1, _⟩
        · rcases h1 with h1 | h1
          · exact Or.inl (eq_of_beq h1)
          · exact Or.inr (Or.inl (eq_of_beq h1))
        · exact Or.inr (Or.inr (eq_of_beq h1))
      have ens : noSortable (Node.mk t (.inl sname) c) =
          (!(Node.mk t (.inl sname) c).is_sortable && allNoSortable c) := rfl
      rw [ens, hkids]
      rcases ht with h1 | h1 | h1 <;> (rw [h1]; rfl)

theorem applyList_eq_map (c : List Node) (σ : Subst) :
    applyList c σ = c.map (fun k => apply k σ) := by
  induction c with
  | nil => rfl
  | cons a as ih => rw [applyList, List.map_cons, ih]

theorem apply_var_inl (t sname : String) (c : List Node) (σ : Subst)
    (h : (Node.mk t (.inl sname) c).is_variable = true) :
    apply (Node.mk t (.inl sname) c) σ =
      (match substLookup σ (.inl sname) with
       | some r => r
       | none => Node.mk t (.inl sname) c) := by
  have e : apply (Node.mk t (.inl sname) c) σ =
      if (Node.mk t (.inl sname) c).is_variable then
        (match substLookup σ (.inl sname) with
         | some r => r
         | none => Node.mk t (.inl sname) c)
      else
        sort (Node.mk t (.inl sname) (applyList c σ)) := rfl
  rw [e, if_pos h]

theorem apply_nonvar_inl (t sname : String) (c : List Node) (σ : Subst)
    (h : (Node.mk t (.inl sname) c).is_variable = false) :
    apply (Node.mk t (.inl sname) c) σ =
      sort (Node.mk t (.inl sname) (applyList c σ)) := by
  have e : apply (Node.mk t (.inl sname) c) σ =
      if (Node.mk t (.inl sname) c).is_variable then
        (match substLookup σ (.inl sname) with
         | some r => r
         | none => Node.mk t (.inl sname) c)
      else
        sort (Node.mk t (.inl sname) (applyList c σ)) := rfl
  rw [e, h]
  simp

theorem legalTerm_apply : ∀ t : Node, ∀ σ : Subst, legalTerm t = true →
    (∀ p ∈ σ, legalTerm p.2 = true) → legalTerm (apply t σ) = true := by
  intro t
  induction t using indMem with
  | h ty v c ihc ihv =>
    intro σ hleg hσ
    cases v with
    | inr m => rw [legalTerm_inr_false] at hleg; exact absurd hleg (by simp)
    | inl sname =>
      have hleg' := hleg
      rw [legalTerm_inl_eq] at hleg'
      simp only [Bool.and_eq_true, Bool.or_eq_true] at hleg'
      by_cases hvar : (Node.mk ty (.inl sname) c).is_variable = true
      · rw [apply_var_inl ty sname c σ hvar]
        cases hl : substLookup σ (.inl sname) with
        | none => exact hleg
        | some u => exact hσ (_, u) (substLookup_mem hl)
      · rw [apply_nonvar_inl ty sname c σ (by simp_all)]
        have hkids : allLegalTerm (applyList c σ) = true := by
          rw [applyList_eq_map, allLegalTerm_iff]
          intro k hk
          rcases List.mem_map.mp hk with ⟨j, hj, hjk⟩
          rw [← hjk]
          exact ihc j hj σ (allLegalTerm_mem hleg'.2 j hj) hσ
        have hlen : (applyList c σ).isEmpty = c.isEmpty := by
          rw [applyList_eq_map]
          cases c <;> rfl
        have hlegX : legalTerm (Node.mk ty (.inl sname) (applyList c σ))
            = true := by
          rw [legalTerm_inl_eq, hkids, hlen]
          simp only [Bool.and_true, Bool.or_eq_true, Bool.and_eq_true]
          exact hleg'.1
        rw [sort_eq_of_noSortable _ (noSortable_of_legalTerm _ hlegX)]
        exact hlegX

end Node


namespace Unification

open Node

theorem containsKey_eq_isSome (σ : Subst) (k : TValue) :
    containsKey σ k = (substLookup σ k).isSome := by
  induction σ with
  | nil => rfl
  | cons p rest ih =>
    rw [containsKey, List.any_cons, substLookup]
    by_cases hk : (p.1 == k) = true
    · rw [hk]
      simp
    · rw [if_neg hk]
      have : (p.1 == k) = false := by simp_all
      rw [this, Bool.false_or, ← containsKey, ih]

theorem composePair_nil (r : Subst) :
    composePair [] r = r.filter (fun p => !(isIdPair p)) := by
  rw [composePair]
  have h1 : r.filter (fun p => !(containsKey [] p.1)) = r := by
    induction r with
    | nil => rfl
    | cons p rest ih => rw [List.filter, ih]; rfl
  simp only [List.map_nil, h1, List.nil_append]

theorem compose_two (r s : Subst) :
    compose [r, s] = composePair (composePair [] r) s := rfl

theorem keys_map_apply (r' s : Subst) :
    ((r'.map (fun p => (p.1, p.2.apply s))).map Prod.fst) =
      r'.map Prod.fst := by
  induction r' with
  | nil => rfl
  | cons p rest ih =>
    rw [List.map_cons, List.map_cons, List.map_cons, ih]

theorem nodup_keys_filter (σ : Subst) (q : TValue × Node → Bool)
    (h : (σ.map Prod.fst).Nodup) : ((σ.filter q).map Prod.fst).Nodup :=
  h.sublist ((σ.filter_sublist).map Prod.fst)

theorem merged_nodup (r' s : Subst)
    (hnr : (r'.map Prod.fst).Nodup) (hns : (s.map Prod.fst).Nodup) :
    (((r'.map (fun p => (p.1, p.2.apply s)) ++
        s.filter (fun p => !(containsKey r' p.1))).map Prod.fst)).Nodup := by
  rw [List.map_append, List.nodup_append, keys_map_apply]
  refine ⟨hnr, nodup_keys_filter s _ hns, ?_⟩
  intro k hk1 hk2
  rcases List.mem_map.mp hk2 with ⟨p, hp, hfst⟩
  have hpin := List.mem_filter.mp hp
  have hck : containsKey r' k = true := (containsKey_iff_mem r' k).mpr hk1
  rw [← hfst] at hck
  rw [hck] at hpin
  simp at hpin

theorem legal_idpair (name : String) (u : Node)
    (hu : legalTerm u = true)
    (hid : isIdPair (.inl name, u) = true) :
    u = Node.mk VARIABLE (.inl name) [] := by
  cases u with
  | mk t v c =>
    rw [isIdPair, Bool.and_eq_true] at hid
    have ht : t = VARIABLE := eq_of_beq hid.1
    have hv : v = .inl name := (tvalue_beq_iff v (.inl name)).mp hid.2
    subst ht; subst hv
    rw [legalTerm_inl_eq] at hu
    simp only [Bool.and_eq_true, Bool.or_eq_true] at hu
    have hc : c = [] := by
      rcases hu.1 with ⟨_, h2⟩ | ⟨h1, _⟩
      · exact List.isEmpty_iff.mp h2
      · exact absurd (eq_of_beq h1) (by decide)
    rw [hc]

theorem substLookup_composePair (r s : Subst) (k : TValue)
    (hnr : (r.map Prod.fst).Nodup) (hns : (s.map Prod.fst).Nodup) :
    substLookup (composePair r s) k =
      (match substLookup r k with
       | some u =>
         if isIdPair (k, u.apply s) then none else some (u.apply s)
       | none =>
         match substLookup s k with
         | some w => if isIdPair (k, w) then none else some w
         | none => none) := by
  rw [composePair,
    substLookup_filter_of_nodup _ _ (merged_nodup r s hnr hns) k,
    substLookup_append, substLookup_map (fun u => u.apply s) r k,
    substLookup_filterKey r s k, containsKey_eq_isSome r k]
  cases hlr : substLookup r k with
  | some u =>
    simp only [Option.map_some, Option.isSome_some]
    cases hid : isIdPair (k, u.apply s) <;> simp [hid]
  | none =>
    simp only [Option.map_none, Option.isSome_none]
    cases hls : substLookup s k with
    | none => rfl
    | some w =>
      simp only
      cases hid : isIdPair (k, w) <;> simp [hid]

theorem isIdPair_self (name : String) :
    isIdPair (.inl name, Node.mk VARIABLE (.inl name) []) = true := by
  rw [isIdPair]
  have h1 : (Node.mk VARIABLE (.inl name) []).is_variable = true := rfl
  have h2 : (Node.mk VARIABLE (.inl name) []).valueIs2 (.inl name) = true :=
    tvalue_beq_self (.inl name)
  rw [h1, h2]
  rfl

theorem apply_var_compose (name : String) (r s : Subst)
    (hr : ∀ p ∈ r, legalTerm p.2 = true) (hs : ∀ p ∈ s, legalTerm p.2 = true)
    (hnr : (r.map Prod.fst).Nodup) (hns : (s.map Prod.fst).Nodup) :
    apply (Node.mk VARIABLE (.inl name) []) (compose [r, s]) =
      apply (apply (Node.mk VARIABLE (.inl name) []) r) s := by
  have hxvar : (Node.mk VARIABLE (.inl name) []).is_variable = true := rfl
  have hnr' : (((composePair [] r).map Prod.fst)).Nodup := by
    rw [composePair_nil]
    exact nodup_keys_filter r _ hnr
  rw [compose_two,
    apply_var_inl VARIABLE name [] _ hxvar,
    apply_var_inl VARIABLE name [] r hxvar,
    substLookup_composePair (composePair [] r) s (.inl name) hnr' hns,
    composePair_nil,
    substLookup_filter_of_nodup _ r hnr (.inl name)]
  cases hlr : substLookup r (.inl name) with
  | none =>
    simp only
    rw [apply_var_inl VARIABLE name [] s hxvar]
    cases hls : substLookup s (.inl name) with
    | none => rfl
    | some w =>
      have hwleg : legalTerm w = true := hs _ (substLookup_mem hls)
      cases hidw : isIdPair (.inl name, w) with
      | true =>
        have hwx := legal_idpair name w hwleg hidw
        simp [hidw, hwx, isIdPair_self]
      | false => simp [hidw]
  | some u =>
    have huleg : legalTerm u = true := hr _ (substLookup_mem hlr)
    cases hidu : isIdPair (.inl name, u) with
    | true =>
      have hux : u = Node.mk VARIABLE (.inl name) [] :=
        legal_idpair name u huleg hidu
      simp only [hidu, Bool.not_true, if_neg (by simp : ¬(false = true))]
      rw [hux, apply_var_inl VARIABLE name [] s hxvar]
      cases hls : substLookup s (.inl name) with
      | none => rfl
      | some w =>
        have hwleg : legalTerm w = true := hs _ (substLookup_mem hls)
        cases hidw : isIdPair (.inl name, w) with
        | true =>
          have hwx := legal_idpair name w hwleg hidw
          simp [hidw, hwx, isIdPair_self]
        | false => simp [hidw]
    | false =>
      have husleg : legalTerm (u.apply s) = true :=
        legalTerm_apply u s huleg hs
      simp only [hidu, Bool.not_false, if_pos rfl]
      cases hidus : isIdPair (.inl name, u.apply s) with
      | true =>
        have husx := legal_idpair name _ husleg hidus
        simp [hidus, husx, isIdPair_self]
      | false => simp [hidus]

theorem compose_two_ranges_legal (r s : Subst)
    (hr : ∀ p ∈ r, legalTerm p.2 = true) (hs : ∀ p ∈ s, legalTerm p.2 = true) :
    ∀ p ∈ compose [r, s], legalTerm p.2 = true := by
  intro p hp
  rw [compose_two, composePair] at hp
  have hp1 := (List.mem_filter.mp hp).1
  rcases List.mem_append.mp hp1 with h1 | h2
  · rcases List.mem_map.mp h1 with ⟨q, hq, hqe⟩
    have hq' : q ∈ r := by
      rw [composePair_nil] at hq
      exact (List.mem_filter.mp hq).1
    rw [← hqe]
    exact legalTerm_apply q.2 s (hr q hq') hs
  · exact hs p (List.mem_filter.mp h2).1

theorem apply_nonvar_legal_eq (ty sname : String) (c : List Node) (σ : Subst)
    (hleg : legalTerm (Node.mk ty (.inl sname) c) = true)
    (hσ : ∀ p ∈ σ, legalTerm p.2 = true)
    (hvar : (Node.mk ty (.inl sname) c).is_variable = false) :
    apply (Node.mk ty (.inl sname) c) σ =
      Node.mk ty (.inl sname) (applyList c σ) := by
  rw [apply_nonvar_inl ty sname c σ hvar]
  have hleg' := hleg
  rw [legalTerm_inl_eq] at hleg'
  simp only [Bool.and_eq_true, Bool.or_eq_true] at hleg'
  have hkids : allLegalTerm (applyList c σ) = true := by
    rw [applyList_eq_map, allLegalTerm_iff]
    intro k hk
    rcases List.mem_map.mp hk with ⟨j, hj, hjk⟩
    rw [← hjk]
    exact legalTerm_apply j σ (allLegalTerm_mem hleg'.2 j hj) hσ
  have hlen : (applyList c σ).isEmpty = c.isEmpty := by
    rw [applyList_eq_map]
    cases c <;> rfl
  have hlegX : legalTerm (Node.mk ty (.inl sname) (applyList c σ)) = true := by
    rw [legalTerm_inl_eq, hkids, hlen]
    simp only [Bool.and_true, Bool.or_eq_true, Bool.and_eq_true]
    exact hleg'.1
  rw [sort_eq_of_noSortable _ (noSortable_of_legalTerm _ hlegX)]

theorem apply_compose_of_legal :
    ∀ (t : Node) (r s : Subst), legalTerm t = true →
      (∀ p ∈ r, legalTerm p.2 = true) → (∀ p ∈ s, legalTerm p.2 = true) →
      (r.map Prod.fst).Nodup → (s.map Prod.fst).Nodup →
      apply t (compose [r, s]) = apply (apply t r) s := by
  intro t
  induction t using Node.indMem with
  | h ty v c ihc ihv =>
    intro r s hleg hr hs hnr hns
    cases v with
    | inr m => rw [legalTerm_inr_false] at hleg; exact absurd hleg (by simp)
    | inl sname =>
      by_cases hvar : (Node.mk ty (.inl sname) c).is_variable = true
      · have hty : ty = VARIABLE := eq_of_beq hvar
        have hc : c = [] := by
          have h' := hleg
          rw [legalTerm_inl_eq] at h'
          simp only [Bool.and_eq_true, Bool.or_eq_true] at h'
          rcases h'.1 with ⟨_, h2⟩ | ⟨h1, _⟩
          · exact List.isEmpty_iff.mp h2
          · rw [hty] at h1
            exact absurd (eq_of_beq h1) (by decide)
        subst hty
        subst hc
        exact apply_var_compose sname r s hr hs hnr hns
      · have hvf : (Node.mk ty (.inl sname) c).is_variable = false := by
          simp_all
        have hρleg := compose_two_ranges_legal r s hr hs
        rw [apply_nonvar_legal_eq ty sname c _ hleg hρleg hvf]
        rw [apply_nonvar_legal_eq ty sname c r hleg hr hvf]
        have hinnerleg : legalTerm
            (Node.mk ty (.inl sname) (applyList c r)) = true := by
          have h0 := legalTerm_apply (Node.mk ty (.inl sname) c) r hleg hr
          rw [apply_nonvar_legal_eq ty sname c r hleg hr hvf] at h0
          exact h0
        rw [apply_nonvar_legal_eq ty sname (applyList c r) s hinnerleg hs
          (show (Node.mk ty (.inl sname) (applyList c r)).is_variable = false
            from hvf)]
        have hmem : ∀ k ∈ c, legalTerm k = true := by
          have h' := hleg
          rw [legalTerm_inl_eq] at h'
          simp only [Bool.and_eq_true] at h'
          exact allLegalTerm_mem h'.2
        have hkids : applyList c (compose [r, s]) =
            applyList (applyList c r) s := by
          rw [applyList_eq_map, applyList_eq_map, applyList_eq_map,
            List.map_map]
          apply List.map_congr_left
          intro k hk
          exact ihc k hk r s (hmem k hk) hr hs hnr hns
        rw [hkids]

end Unification

namespace Node

theorem legalAtom_inr_false (t : String) (m : Node) (c : List Node) :
    legalAtom (Node.mk t (.inr m) c) = false := by
  have e : legalAtom (Node.mk t (.inr m) c) =
      ((t == PREDICATE) && false && !c.isEmpty && allLegalTerm c) := rfl
  rw [e]
  simp

theorem legalAtom_inl_eq (t sname : String) (c : List Node) :
    legalAtom (Node.mk t (.inl sname) c) =
      ((t == PREDICATE) && !(sname == EQUALITY) && !c.isEmpty
        && allLegalTerm c) := rfl

theorem legalTerm_var (name : String) :
    legalTerm (Node.mk VARIABLE (.inl name) []) = true := rfl

theorem noSortable_of_legalAtom : ∀ n, legalAtom n = true →
    noSortable n = true := by
  intro n
  cases n with
  | mk t v c =>
    intro h
    cases v with
    | inr m => rw [legalAtom_inr_false] at h; exact absurd h (by simp)
    | inl sname =>
      rw [legalAtom_inl_eq] at h
      simp only [Bool.and_eq_true] at h
      obtain ⟨⟨⟨ht, hne⟩, _⟩, hkids⟩ := h
      have hts : t = PREDICATE := eq_of_beq ht
      subst hts
      have hns : allNoSortable c = true := by
        rw [allNoSortable_iff]
        intro k hk
        exact noSortable_of_legalTerm k (allLegalTerm_mem hkids k hk)
      have ens : noSortable (Node.mk PREDICATE (.inl sname) c) =
          (!(Node.mk PREDICATE (.inl sname) c).is_sortable
            && allNoSortable c) := rfl
      rw [ens, hns, Bool.and_true]
      -- the only sortable predicate node is the equality atom
      have eis : (Node.mk PREDICATE (.inl sname) c).is_sortable =
          (sname == EQUALITY) := rfl
      rw [eis]
      exact hne

theorem noSortable_of_legalTA : ∀ n, legalTA n = true →
    noSortable n = true := by
  intro n h
  rw [legalTA, Bool.or_eq_true] at h
  rcases h with h | h
  · exact noSortable_of_legalTerm n h
  · exact noSortable_of_legalAtom n h

theorem legalTA_of_legalTerm (n : Node) (h : legalTerm n = true) :
    legalTA n = true := by
  rw [legalTA, h, Bool.true_or]

theorem apply_var_inr (t : String) (m : Node) (c : List Node) (σ : Subst)
    (h : (Node.mk t (.inr m) c).is_variable = true) :
    apply (Node.mk t (.inr m) c) σ =
      (match substLookup σ (Sum.inr m : TValue) with
       | some r => r
       | none => Node.mk t (.inr m) c) := by
  have e : apply (Node.mk t (.inr m) c) σ =
      if (Node.mk t (.inr m) c).is_variable then
        (match substLookup σ (Sum.inr m : TValue) with
         | some r => r
         | none => Node.mk t (.inr m) c)
      else
        sort (Node.mk t (.inr (apply m σ)) (applyList c σ)) := rfl
  rw [e, if_pos h]

theorem apply_var_any (t : String) (w : TValue) (c : List Node) (σ : Subst)
    (h : (Node.mk t w c).is_variable = true) :
    apply (Node.mk t w c) σ =
      (match substLookup σ w with
       | some r => r
       | none => Node.mk t w c) := by
  cases w with
  | inl s => exact apply_var_inl t s c σ h
  | inr m => exact apply_var_inr t m c σ h

theorem apply_nonvar_inr (t : String) (m : Node) (c : List Node) (σ : Subst)
    (h : (Node.mk t (.inr m) c).is_variable = false) :
    apply (Node.mk t (.inr m) c) σ =
      sort (Node.mk t (.inr (apply m σ)) (applyList c σ)) := by
  have e : apply (Node.mk t (.inr m) c) σ =
      if (Node.mk t (.inr m) c).is_variable then
        (match substLookup σ (Sum.inr m : TValue) with
         | some r => r
         | none => Node.mk t (.inr m) c)
      else
        sort (Node.mk t (.inr (apply m σ)) (applyList c σ)) := rfl
  rw [e, h]
  simp

theorem is_sortable_inr (ty : String) (m : Node) (c : List Node) :
    (Node.mk ty (.inr m) c).is_sortable = false := by
  rw [is_sortable]
  have e1 : (Node.mk ty (.inr m) c).is_conjunction =
      ((Node.mk ty (.inr m) c).isFormulaType && false) := rfl
  have e2 : (Node.mk ty (.inr m) c).is_disjunction =
      ((Node.mk ty (.inr m) c).isFormulaType && false) := rfl
  have e3 : (Node.mk ty (.inr m) c).is_equivalence =
      ((Node.mk ty (.inr m) c).isFormulaType && false) := rfl
  have e4 : (Node.mk ty (.inr m) c).is_equality =
      ((Node.mk ty (.inr m) c).is_predicate && false) := rfl
  rw [e1, e2, e3, e4]
  simp

theorem noSortable_apply : ∀ t : Node, ∀ σ : Subst, noSortable t = true →
    (∀ e ∈ σ, noSortable e.2 = true) → noSortable (apply t σ) = true := by
  intro t
  induction t using indMem with
  | h ty v c ihc ihv =>
    intro σ hns hσ
    have hns' := hns
    have ens : noSortable (Node.mk ty v c) =
        (!(Node.mk ty v c).is_sortable && allNoSortable c) := rfl
    rw [ens, Bool.and_eq_true] at hns'
    have hkids : allNoSortable (applyList c σ) = true := by
      rw [applyList_eq_map, allNoSortable_iff]
      intro k hk
      rcases List.mem_map.mp hk with ⟨j, hj, hjk⟩
      rw [← hjk]
      exact ihc j hj σ (allNoSortable_mem hns'.2 j hj) hσ
    by_cases hvar : (Node.mk ty v c).is_variable = true
    · rw [apply_var_any ty v c σ hvar]
      cases hl : substLookup σ v with
      | none => exact hns
      | some u => exact hσ (_, u) (substLookup_mem hl)
    · have hvf : (Node.mk ty v c).is_variable = false := by simp_all
      cases v with
      | inl s =>
        rw [apply_nonvar_inl ty s c σ hvf]
        have hXns : noSortable (Node.mk ty (.inl s) (applyList c σ))
            = true := by
          have e2 : noSortable (Node.mk ty (.inl s) (applyList c σ)) =
              (!(Node.mk ty (.inl s) (applyList c σ)).is_sortable
                && allNoSortable (applyList c σ)) := rfl
          have e3 : (Node.mk ty (.inl s) (applyList c σ)).is_sortable =
              (Node.mk ty (.inl s) c).is_sortable := rfl
          rw [e2, e3, hkids, Bool.and_true]
          exact hns'.1
        rw [sort_eq_of_noSortable _ hXns]
        exact hXns
      | inr m =>
        rw [apply_nonvar_inr ty m c σ hvf]
        have hXns : noSortable
            (Node.mk ty (.inr (apply m σ)) (applyList c σ)) = true := by
          have e2 : noSortable
              (Node.mk ty (.inr (apply m σ)) (applyList c σ)) =
              (!(Node.mk ty (.inr (apply m σ)) (applyList c σ)).is_sortable
                && allNoSortable (applyList c σ)) := rfl
          rw [e2, is_sortable_inr, hkids]
          rfl
        rw [sort_eq_of_noSortable _ hXns]
        exact hXns

theorem apply_nonvar_ns_eq (ty sname : String) (c : List Node) (σ : Subst)
    (hns : noSortable (Node.mk ty (.inl sname) c) = true)
    (hσ : ∀ e ∈ σ, noSortable e.2 = true)
    (hvar : (Node.mk ty (.inl sname) c).is_variable = false) :
    apply (Node.mk ty (.inl sname) c) σ =
      Node.mk ty (.inl sname) (applyList c σ) := by
  rw [apply_nonvar_inl ty sname c σ hvar]
  have hns' := hns
  have ens : noSortable (Node.mk ty (.inl sname) c) =
      (!(Node.mk ty (.inl sname) c).is_sortable && allNoSortable c) := rfl
  rw [ens, Bool.and_eq_true] at hns'
  have hkids : allNoSortable (applyList c σ) = true := by
    rw [applyList_eq_map, allNoSortable_iff]
    intro k hk
    rcases List.mem_map.mp hk with ⟨j, hj, hjk⟩
    rw [← hjk]
    exact noSortable_apply j σ (allNoSortable_mem hns'.2 j hj) hσ
  have hXns : noSortable (Node.mk ty (.inl sname) (applyList c σ))
      = true := by
    have e2 : noSortable (Node.mk ty (.inl sname) (applyList c σ)) =
        (!(Node.mk ty (.inl sname) (applyList c σ)).is_sortable
          && allNoSortable (applyList c σ)) := rfl
    have e3 : (Node.mk ty (.inl sname) (applyList c σ)).is_sortable =
        (Node.mk ty (.inl sname) c).is_sortable := rfl
    rw [e2, e3, hkids, Bool.and_true]
    exact hns'.1
  rw [sort_eq_of_noSortable _ hXns]

theorem substLookup_singleton (k w : TValue) (u : Node) :
    substLookup [(k, u)] w = if k == w then some u else none := rfl

theorem occurs_in_mk (x : Node) (t : String) (v : String ⊕ Node)
    (c : List Node) :
    occurs_in x (Node.mk t v c) =
      (((Node.mk t v c).is_function || (Node.mk t v c).is_predicate)
        && anyVarValue x c || anyOccurs x c) := rfl

theorem anyVarValue_false_mem {x : Node} {c : List Node}
    (h : anyVarValue x c = false) :
    ∀ k ∈ c, (k.is_variable && k.value == x.value) = false := by
  induction c with
  | nil => intro k hk; simp at hk
  | cons a as ih =>
    intro k hk
    have e : anyVarValue x (a :: as) =
        ((a.is_variable && a.value == x.value) || anyVarValue x as) := rfl
    rw [e, Bool.or_eq_false_iff] at h
    rcases List.mem_cons.mp hk with h1 | h2
    · rw [h1]; exact h.1
    · exact ih h.2 k h2

theorem anyOccurs_false_mem {x : Node} {c : List Node}
    (h : anyOccurs x c = false) : ∀ k ∈ c, occurs_in x k = false := by
  induction c with
  | nil => intro k hk; simp at hk
  | cons a as ih =>
    intro k hk
    have e : anyOccurs x (a :: as) =
        (occurs_in x a || anyOccurs x as) := rfl
    rw [e, Bool.or_eq_false_iff] at h
    rcases List.mem_cons.mp hk with h1 | h2
    · rw [h1]; exact h.1
    · exact ih h.2 k h2

/-- Shape of the children and the head of a legal term or atom: the
children are legal terms, and a node with children is a function or a
predicate. -/
theorem legalTA_elim (ty s : String) (c : List Node)
    (h : legalTA (Node.mk ty (.inl s) c) = true) :
    allLegalTerm c = true ∧
    (c = [] ∨ ((Node.mk ty (.inl s) c).is_function
        || (Node.mk ty (.inl s) c).is_predicate) = true) := by
  rw [legalTA, Bool.or_eq_true] at h
  rcases h with h | h
  · rw [legalTerm_inl_eq] at h
    simp only [Bool.and_eq_true, Bool.or_eq_true] at h
    refine ⟨(allLegalTerm_iff c).mpr (allLegalTerm_mem h.2), ?_⟩
    rcases h.1 with ⟨_, h2⟩ | ⟨h1, _⟩
    · exact Or.inl (List.isEmpty_iff.mp h2)
    · refine Or.inr ?_
      have ef : (Node.mk ty (.inl s) c).is_function = (ty == FUNCTION) := rfl
      rw [ef, h1]
      rfl
  · rw [legalAtom_inl_eq] at h
    simp only [Bool.and_eq_true] at h
    refine ⟨h.2, Or.inr ?_⟩
    have ep : (Node.mk ty (.inl s) c).is_predicate = (ty == PREDICATE) := rfl
    rw [ep, h.1.1.1]
    simp

/-- A legal term or atom that is a variable is a childless string-named
variable leaf. -/
theorem legalTA_variable_shape (q : Node) (hq : legalTA q = true)
    (hvar : q.is_variable = true) :
    ∃ nm, q = Node.mk VARIABLE (.inl nm) [] := by
  cases q with
  | mk t v c =>
    have ht : t = VARIABLE := eq_of_beq hvar
    subst ht
    cases v with
    | inr m =>
      rw [legalTA, legalTerm_inr_false, legalAtom_inr_false] at hq
      exact absurd hq (by simp)
    | inl s =>
      rw [legalTA, Bool.or_eq_true] at hq
      rcases hq with hq | hq
      · rw [legalTerm_inl_eq] at hq
        simp only [Bool.and_eq_true, Bool.or_eq_true] at hq
        have hc : c = [] := by
          rcases hq.1 with ⟨_, h2⟩ | ⟨h1, _⟩
          · exact List.isEmpty_iff.mp h2
          · exact absurd (eq_of_beq h1) (by decide)
        exact ⟨s, by rw [hc]⟩
      · rw [legalAtom_inl_eq] at hq
        simp only [Bool.and_eq_true] at hq
        exact absurd (eq_of_beq hq.1.1.1) (by decide)

/-- A legal term or atom that is a constant is a childless string-named
constant leaf. -/
theorem legalTA_constant_shape (q : Node) (hq : legalTA q = true)
    (hconst : q.is_constant = true) :
    ∃ nm, q = Node.mk CONSTANT (.inl nm) [] := by
  cases q with
  | mk t v c =>
    have ht : t = CONSTANT := eq_of_beq hconst
    subst ht
    cases v with
    | inr m =>
      rw [legalTA, legalTerm_inr_false, legalAtom_inr_false] at hq
      exact absurd hq (by simp)
    | inl s =>
      rw [legalTA, Bool.or_eq_true] at hq
      rcases hq with hq | hq
      · rw [legalTerm_inl_eq] at hq
        simp only [Bool.and_eq_true, Bool.or_eq_true] at hq
        have hc : c = [] := by
          rcases hq.1 with ⟨_, h2⟩ | ⟨h1, _⟩
          · exact List.isEmpty_iff.mp h2
          · exact absurd (eq_of_beq h1) (by decide)
        exact ⟨s, by rw [hc]⟩
      · rw [legalAtom_inl_eq] at hq
        simp only [Bool.and_eq_true] at hq
        exact absurd (eq_of_beq hq.1.1.1) (by decide)

theorem map_eq_of_zip (f : Node → Node) :
    ∀ (l1 l2 : List Node), l1.length = l2.length →
      (∀ pr ∈ l1.zip l2, f pr.1 = f pr.2) → l1.map f = l2.map f := by
  intro l1
  induction l1 with
  | nil =>
    intro l2 hlen _
    cases l2 with
    | nil => rfl
    | cons b bs => simp at hlen
  | cons a as ih =>
    intro l2 hlen hz
    cases l2 with
    | nil => simp at hlen
    | cons b bs =>
      simp only [List.map_cons]
      have h1 : f a = f b := hz (a, b) (by simp [List.zip_cons_cons])
      rw [h1, ih bs (by simpa using hlen)
        (fun pr hpr => hz pr (by simp [List.zip_cons_cons, hpr]))]

theorem zip_eq_of_map (f : Node → Node) :
    ∀ (l1 l2 : List Node), l1.map f = l2.map f →
      ∀ pr ∈ l1.zip l2, f pr.1 = f pr.2 := by
  intro l1
  induction l1 with
  | nil => intro l2 _ pr hpr; simp at hpr
  | cons a as ih =>
    intro l2 hmap pr hpr
    cases l2 with
    | nil => simp at hpr
    | cons b bs =>
      simp only [List.map_cons, List.cons.injEq] at hmap
      rw [List.zip_cons_cons] at hpr
      rcases List.mem_cons.mp hpr with h1 | h2
      · rw [h1]; exact hmap.1
      · exact ih bs hmap.2 pr h2

/-- Applying the singleton substitution `{name ↦ u}` to a legal term or
atom in which the variable `name` does not occur (and which is not the
variable `name` itself) leaves it unchanged. -/
theorem apply_singleton_no_occurs :
    ∀ w : Node, ∀ (name : String) (u : Node), legalTA w = true →
      noSortable u = true →
      (w.is_variable = true → w.value ≠ Sum.inl name) →
      occurs_in (Node.mk VARIABLE (.inl name) []) w = false →
      apply w [(Sum.inl name, u)] = w := by
  intro w
  induction w using indMem with
  | h ty v c ihc ihv =>
    intro name u hleg hnsu hnotx hocc
    by_cases hvar : (Node.mk ty v c).is_variable = true
    · -- a variable other than `name`: the lookup misses
      rw [apply_var_any ty v c _ hvar, substLookup_singleton]
      have hne : ((Sum.inl name : TValue) == v) = false := by
        cases hbeq : ((Sum.inl name : TValue) == v) with
        | false => rfl
        | true =>
          have hv : (Sum.inl name : TValue) = v := (tvalue_beq_iff _ _).mp hbeq
          exact absurd hv.symm (hnotx hvar)
      rw [hne]
      simp
    · have hvf : (Node.mk ty v c).is_variable = false := by simp_all
      cases v with
      | inr m =>
        have hfalse : legalTA (Node.mk ty (.inr m) c) = false := by
          rw [legalTA, legalTerm_inr_false, legalAtom_inr_false]
          rfl
        rw [hfalse] at hleg
        exact absurd hleg (by simp)
      | inl s =>
        have hnsw : noSortable (Node.mk ty (.inl s) c) = true :=
          noSortable_of_legalTA _ hleg
        have hσns : ∀ e ∈ [((Sum.inl name : TValue), u)],
            noSortable e.2 = true := by
          intro e he
          rcases List.mem_singleton.mp he with rfl
          exact hnsu
        rw [apply_nonvar_ns_eq ty s c _ hnsw hσns hvf]
        obtain ⟨hkidsleg, hhead⟩ := legalTA_elim ty s c hleg
        have hkids : applyList c [(Sum.inl name, u)] = c := by
          rw [applyList_eq_map]
          have hcongr : c.map (fun k => apply k [(Sum.inl name, u)])
              = c.map id := by
            apply List.map_congr_left
            intro k hk
            have hfp : ((Node.mk ty (.inl s) c).is_function
                || (Node.mk ty (.inl s) c).is_predicate) = true := by
              rcases hhead with hc0 | hfp
              · rw [hc0] at hk; exact absurd hk (by simp)
              · exact hfp
            have hocc' := hocc
            rw [occurs_in_mk, hfp, Bool.true_and,
              Bool.or_eq_false_iff] at hocc'
            have hkvar := anyVarValue_false_mem hocc'.1 k hk
            have hkocc := anyOccurs_false_mem hocc'.2 k hk
            exact ihc k hk name u
              (legalTA_of_legalTerm k (allLegalTerm_mem hkidsleg k hk))
              hnsu
              (by
                intro hkv hkval
                rw [hkv, Bool.true_and] at hkvar
                have : (k.value == (Node.mk VARIABLE
                    (.inl name) []).value) = true := by
                  rw [hkval]; exact tvalue_beq_self _
                rw [this] at hkvar
                exact absurd hkvar (by simp))
              hkocc
          rw [hcongr, List.map_id]
        rw [hkids]

/-- Soundness of the variable branch of `unify`: binding a variable to a
node in which it does not occur unifies the two. -/
theorem unify_var_subst_sound (name : String) (q : Node)
    (hq : legalTA q = true)
    (hocc : occurs_in (Node.mk VARIABLE (.inl name) []) q = false) :
    apply (Node.mk VARIABLE (.inl name) []) [(Sum.inl name, q)] =
      apply q [(Sum.inl name, q)] := by
  have hxvar : (Node.mk VARIABLE (.inl name) []).is_variable = true := rfl
  rw [apply_var_any VARIABLE (Sum.inl name) [] _ hxvar,
    substLookup_singleton, tvalue_beq_self]
  simp only [if_true]
  by_cases hqx : q = Node.mk VARIABLE (.inl name) []
  · -- `unify(x, x)` returns the identity binding `{x ↦ x}`
    conv_lhs => rw [hqx]
    rw [hqx, apply_var_any VARIABLE (Sum.inl name) [] _ hxvar,
      substLookup_singleton, tvalue_beq_self]
    simp
  · rw [apply_singleton_no_occurs q name q hq
      (noSortable_of_legalTA q hq)
      (by
        intro hqvar hqval
        rcases legalTA_variable_shape q hq hqvar with ⟨nm, rfl⟩
        have : nm = name := by
          have := hqval
          simp only [value, Sum.inl.injEq] at this
          exact this
        exact hqx (by rw [this]))
      hocc]

/-- Maximality of the variable branch of `unify`: any unifier of `x` and
`q` absorbs the binding `{x ↦ q}`. -/
theorem unify_var_subst_max (name : String) (q : Node) (τ : Subst)
    (hτuni : apply (Node.mk VARIABLE (.inl name) []) τ = apply q τ) :
    Unification.Absorbs τ [(Sum.inl name, q)] := by
  intro name'
  have hxvar : (Node.mk VARIABLE (.inl name') []).is_variable = true := rfl
  rw [apply_var_any VARIABLE (Sum.inl name') [] [(Sum.inl name, q)] hxvar,
    substLookup_singleton]
  by_cases h : name = name'
  · subst h
    rw [tvalue_beq_self]
    simpa using hτuni
  · have hne : ((Sum.inl name : TValue) == Sum.inl name') = false := by
      cases hbeq : ((Sum.inl name : TValue) == Sum.inl name') with
      | false => rfl
      | true =>
        have := (tvalue_beq_iff _ _).mp hbeq
        simp only [Sum.inl.injEq] at this
        exact absurd this h
    rw [hne]
    simp

theorem nodeSize_mk (t : String) (v : String ⊕ Node) (c : List Node) :
    nodeSize (Node.mk t v c) = 1 + listSize c := rfl

theorem listSize_cons (k : Node) (ks : List Node) :
    listSize (k :: ks) = nodeSize k + listSize ks := rfl

theorem applyList_length (c : List Node) (σ : Subst) :
    (applyList c σ).length = c.length := by
  rw [applyList_eq_map, List.length_map]

theorem nodeSize_apply_le_listSize {k : Node} {c : List Node} (hk : k ∈ c)
    (τ : Subst) : nodeSize (apply k τ) ≤ listSize (applyList c τ) := by
  induction c with
  | nil => simp at hk
  | cons a as ih =>
    have e : applyList (a :: as) τ = apply a τ :: applyList as τ := rfl
    rw [e, listSize_cons]
    rcases List.mem_cons.mp hk with h1 | h2
    · rw [h1]; exact Nat.le_add_right _ _
    · exact le_trans (ih h2) (Nat.le_add_left _ _)

theorem occurs_in_nil_false (x : Node) (ty : String) (v : String ⊕ Node) :
    occurs_in x (Node.mk ty v []) = false := by
  rw [occurs_in_mk]
  have e1 : anyVarValue x ([] : List Node) = false := rfl
  have e2 : anyOccurs x ([] : List Node) = false := rfl
  rw [e1, e2, Bool.and_false, Bool.or_false]

theorem anyVarValue_true_mem {x : Node} {c : List Node}
    (h : anyVarValue x c = true) :
    ∃ k ∈ c, (k.is_variable && k.value == x.value) = true := by
  induction c with
  | nil => exact absurd h (by intro hc; exact Bool.noConfusion hc)
  | cons a as ih =>
    have e : anyVarValue x (a :: as) =
        ((a.is_variable && a.value == x.value) || anyVarValue x as) := rfl
    rw [e, Bool.or_eq_true] at h
    rcases h with h1 | h2
    · exact ⟨a, by simp, h1⟩
    · obtain ⟨k, hk, hkp⟩ := ih h2
      exact ⟨k, by simp [hk], hkp⟩

theorem anyOccurs_true_mem {x : Node} {c : List Node}
    (h : anyOccurs x c = true) :
    ∃ k ∈ c, occurs_in x k = true := by
  induction c with
  | nil => exact absurd h (by intro hc; exact Bool.noConfusion hc)
  | cons a as ih =>
    have e : anyOccurs x (a :: as) =
        (occurs_in x a || anyOccurs x as) := rfl
    rw [e, Bool.or_eq_true] at h
    rcases h with h1 | h2
    · exact ⟨a, by simp, h1⟩
    · obtain ⟨k, hk, hkp⟩ := ih h2
      exact ⟨k, by simp [hk], hkp⟩

/-- The occurs check is sound: if the variable `name` occurs (strictly
below the root) in a legal term or atom `q`, then under every
substitution with no-sortable replacements the image of `q` is strictly
larger than the image of the variable, so the two can never be equal. -/
theorem occurs_size :
    ∀ q : Node, ∀ (name : String) (τ : Subst), legalTA q = true →
      (∀ e ∈ τ, noSortable e.2 = true) →
      occurs_in (Node.mk VARIABLE (.inl name) []) q = true →
      nodeSize (apply (Node.mk VARIABLE (.inl name) []) τ)
        < nodeSize (apply q τ) := by
  intro q
  induction q using indMem with
  | h ty v c ihc ihv =>
    intro name τ hleg hτ hocc
    cases v with
    | inr m =>
      rw [legalTA, legalTerm_inr_false, legalAtom_inr_false] at hleg
      exact absurd hleg (by simp)
    | inl s =>
      have hne : c ≠ [] := by
        intro hc
        rw [hc, occurs_in_nil_false] at hocc
        exact Bool.noConfusion hocc
      obtain ⟨hkidsleg, hhead⟩ := legalTA_elim ty s c hleg
      have hfp : ((Node.mk ty (.inl s) c).is_function
          || (Node.mk ty (.inl s) c).is_predicate) = true := by
        rcases hhead with h0 | h0
        · exact absurd h0 hne
        · exact h0
      have hvf : (Node.mk ty (.inl s) c).is_variable = false := by
        cases hvv : (Node.mk ty (.inl s) c).is_variable with
        | false => rfl
        | true =>
          obtain ⟨nm2, heq2⟩ := legalTA_variable_shape _ hleg hvv
          injection heq2 with _ _ h3
          exact absurd h3 hne
      rw [apply_nonvar_ns_eq ty s c τ (noSortable_of_legalTA _ hleg) hτ hvf,
        nodeSize_mk]
      rw [occurs_in_mk, hfp, Bool.true_and, Bool.or_eq_true] at hocc
      rcases hocc with hvv | hoc
      · obtain ⟨k, hk, hkprop⟩ := anyVarValue_true_mem hvv
        rw [Bool.and_eq_true] at hkprop
        obtain ⟨nm2, rfl⟩ := legalTA_variable_shape k
          (legalTA_of_legalTerm _ (allLegalTerm_mem hkidsleg k hk)) hkprop.1
        have hnm : nm2 = name := by
          have hv := (tvalue_beq_iff _ _).mp hkprop.2
          simp only [value, Sum.inl.injEq] at hv
          exact hv
        subst hnm
        have hle := nodeSize_apply_le_listSize hk τ
        omega
      · obtain ⟨k, hk, hkocc⟩ := anyOccurs_true_mem hoc
        have hlt := ihc k hk name τ
          (legalTA_of_legalTerm _ (allLegalTerm_mem hkidsleg k hk)) hτ hkocc
        have hle := nodeSize_apply_le_listSize hk τ
        omega

end Node

theorem bool_eq_false_of_not {b : Bool} (h : ¬ b = true) : b = false := by
  cases hb : b with
  | false => rfl
  | true => exact absurd hb h

namespace Cnf

/-- The fourth pass applies `standardize_variables` to the root before
anything else, and that function unconditionally raises. -/
theorem walkNode_standardize_not_ok (fuel : Nat) (n : Node) :
    ∀ r, walkNode standardize_variables fuel n ≠ .ok r := by
  intro r h
  cases fuel with
  | zero => exact Except.noConfusion h
  | succ fuel =>
    have e : walkNode standardize_variables (fuel + 1) n =
        .error .attributeError := rfl
    rw [e] at h
    exact Except.noConfusion h

theorem convert_to_cnf_not_ok (fuel : Nat) (φ : Node) :
    ∀ r, convert_to_cnf fuel φ ≠ .ok r := by
  intro r h
  unfold convert_to_cnf at h
  split at h
  · exact Except.noConfusion h
  · split at h
    · exact Except.noConfusion h
    · split at h
      · exact Except.noConfusion h
      · split at h
        · exact Except.noConfusion h
        · rename_i n4 heq4
          exact walkNode_standardize_not_ok fuel _ n4 heq4

theorem convert_to_cnf_error (fuel : Nat) (φ : Node) :
    ∃ e, convert_to_cnf fuel φ = .error e := by
  cases h : convert_to_cnf fuel φ with
  | error e => exact ⟨e, rfl⟩
  | ok r => exact absurd h (convert_to_cnf_not_ok fuel φ r)

end Cnf

namespace Inference

theorem processOne_not_ok (fuel : Nat) (k : Node) :
    ∀ u, processOne fuel k ≠ .ok u := by
  intro u h
  unfold processOne at h
  split at h
  · exact Except.noConfusion h
  · split at h
    · exact Except.noConfusion h
    · exact Except.noConfusion h

theorem collect_errors (fuel : Nat) (l : List Node) (hne : l ≠ []) :
    ∀ u, l.foldlM (fun _ k => processOne fuel k) () ≠ .ok u := by
  cases l with
  | nil => intro u h; exact absurd rfl hne
  | cons k ks =>
    intro u h
    rw [List.foldlM_cons] at h
    cases hp : processOne fuel k with
    | error e => rw [hp] at h; exact Except.noConfusion h
    | ok v => exact processOne_not_ok fuel k v hp

/-- `infer` raises on every input: the clause-collection loop raises on
its first element, whatever the premises and the conclusion. -/
theorem inferWith_not_ok
    (saturation : List Node → Node → Except Cnf.PyErr (Option Subst))
    (fuel : Nat) (premises : List Node) (g : Node) :
    ∀ r, inferWith saturation fuel premises g ≠ .ok r := by
  intro r h
  unfold inferWith at h
  split at h
  · exact Except.noConfusion h
  · rename_i u heq
    exact collect_errors fuel (premises ++ [g.negate]) (by simp) u heq

theorem inferWith_error
    (saturation : List Node → Node → Except Cnf.PyErr (Option Subst))
    (fuel : Nat) (premises : List Node) (g : Node) :
    ∃ e, inferWith saturation fuel premises g = .error e := by
  cases h : inferWith saturation fuel premises g with
  | error e => exact ⟨e, rfl⟩
  | ok r => exact absurd h (inferWith_not_ok saturation fuel premises g r)

end Inference

theorem bool_not_eq_false {b : Bool} (h : (!b) = false) : b = true := by
  cases hb : b with
  | true => rfl
  | false => rw [hb] at h; exact absurd h (by simp)

namespace Unification

open Node

theorem absorbs_nil (τ : Subst) : Absorbs τ [] := fun _ => rfl

/-- If `τ` absorbs `σ0` on variables, it absorbs it on every legal
term. -/
theorem absorbs_apply (τ σ0 : Subst)
    (hσ : ∀ e ∈ σ0, legalTerm e.2 = true)
    (hτ : ∀ e ∈ τ, noSortable e.2 = true)
    (habs : Absorbs τ σ0) :
    ∀ t, legalTerm t = true → apply (apply t σ0) τ = apply t τ := by
  intro t
  induction t using Node.indMem with
  | h ty v c ihc ihv =>
    intro hleg
    cases v with
    | inr m => rw [legalTerm_inr_false] at hleg; exact absurd hleg (by simp)
    | inl s =>
      by_cases hvar : (Node.mk ty (.inl s) c).is_variable = true
      · have ht : ty = VARIABLE := eq_of_beq hvar
        subst ht
        have hc : c = [] := by
          have h' := hleg
          rw [legalTerm_inl_eq] at h'
          simp only [Bool.and_eq_true, Bool.or_eq_true] at h'
          rcases h'.1 with ⟨_, h2⟩ | ⟨h1, _⟩
          · exact List.isEmpty_iff.mp h2
          · exact absurd (eq_of_beq h1) (by decide)
        subst hc
        exact (habs s).symm
      · have hvf : (Node.mk ty (.inl s) c).is_variable = false := by simp_all
        rw [apply_nonvar_legal_eq ty s c σ0 hleg hσ hvf]
        have hinleg : legalTerm (Node.mk ty (.inl s) (applyList c σ0))
            = true := by
          have h0 := legalTerm_apply (Node.mk ty (.inl s) c) σ0 hleg hσ
          rw [apply_nonvar_legal_eq ty s c σ0 hleg hσ hvf] at h0
          exact h0
        rw [apply_nonvar_ns_eq ty s (applyList c σ0) τ
          (noSortable_of_legalTerm _ hinleg) hτ
          (show (Node.mk ty (.inl s) (applyList c σ0)).is_variable = false
            from hvf),
          apply_nonvar_ns_eq ty s c τ (noSortable_of_legalTerm _ hleg) hτ
            hvf]
        have hmem : ∀ k ∈ c, legalTerm k = true := by
          have h' := hleg
          rw [legalTerm_inl_eq] at h'
          simp only [Bool.and_eq_true] at h'
          exact allLegalTerm_mem h'.2
        have hkids : applyList (applyList c σ0) τ = applyList c τ := by
          rw [applyList_eq_map, applyList_eq_map, applyList_eq_map,
            List.map_map]
          apply List.map_congr_left
          intro k hk
          exact ihc k hk (hmem k hk)
        rw [hkids]

/-- Absorption is preserved by `compose`: the key step of the maximality
invariant of `unify`'s child fold. -/
theorem absorbs_compose (τ rv μ : Subst)
    (hrv : ∀ e ∈ rv, legalTerm e.2 = true)
    (hμ : ∀ e ∈ μ, legalTerm e.2 = true)
    (hnrv : (rv.map Prod.fst).Nodup) (hnμ : (μ.map Prod.fst).Nodup)
    (hτ : ∀ e ∈ τ, noSortable e.2 = true)
    (h1 : Absorbs τ rv) (h2 : Absorbs τ μ) :
    Absorbs τ (compose [rv, μ]) := by
  intro name
  rw [apply_var_compose name rv μ hrv hμ hnrv hnμ,
    absorbs_apply τ μ hμ hτ h2 _
      (legalTerm_apply _ rv (legalTerm_var name) hrv),
    absorbs_apply τ rv hrv hτ h1 _ (legalTerm_var name)]

theorem compose_two_nodup (r s : Subst)
    (hr : (r.map Prod.fst).Nodup) (hs : (s.map Prod.fst).Nodup) :
    ((compose [r, s]).map Prod.fst).Nodup := by
  rw [compose_two]
  have hnr' : (((composePair [] r).map Prod.fst)).Nodup := by
    rw [composePair_nil]
    exact nodup_keys_filter r _ hr
  rw [composePair]
  exact nodup_keys_filter _ _ (merged_nodup _ s hnr' hs)

/-- `unify` at successor fuel, with the child fold written through
`unifyFoldF`. -/
theorem unify_succ_eq (fuel : Nat) (p q : Node) :
    unify (fuel + 1) p q =
      (if !(p.is_term || p.is_atom) then .error .typeErr
       else if !(q.is_term || q.is_atom) then .error .typeErr
       else if p.is_constant && q.is_constant then
         if p.value == q.value then .ok [] else .error .notUnifiable
       else if p.is_variable then
         if p.occurs_in q then .error .notUnifiable
         else .ok [(p.value, q)]
       else if q.is_variable then
         if q.occurs_in p then .error .notUnifiable
         else .ok [(q.value, p)]
       else
         if p.type_ != q.type_ || !(p.value == q.value)
             || p.children.length != q.children.length then
           .error .notUnifiable
         else
           (p.children.zip q.children).foldlM (unifyFoldF fuel) []) := rfl

theorem unifyFoldF_step (fuel : Nat) (rv : Subst) (pr : Node × Node)
    (rest : List (Node × Node)) :
    (pr :: rest).foldlM (unifyFoldF fuel) rv =
      (match unify fuel (pr.1.apply rv) (pr.2.apply rv) with
       | .error err => .error err
       | .ok μ => rest.foldlM (unifyFoldF fuel) (compose [rv, μ])) := by
  rw [List.foldlM_cons]
  have e : unifyFoldF fuel rv pr =
      (unify fuel (pr.1.apply rv) (pr.2.apply rv)) >>=
        (fun μ => pure (compose [rv, μ])) := rfl
  cases hu : unify fuel (pr.1.apply rv) (pr.2.apply rv) with
  | error err =>
    have e1 : unifyFoldF fuel rv pr = .error err := by
      rw [e, hu]
      rfl
    rw [e1]
    rfl
  | ok μ =>
    have e1 : unifyFoldF fuel rv pr = .ok (compose [rv, μ]) := by
      rw [e, hu]
      rfl
    rw [e1]
    rfl

/-- Invariants of `unify`'s child fold, for an arbitrary list of legal
term pairs and accumulator: the final substitution is key-distinct and
legal-term-ranged, refines the accumulator (it identifies whatever the
accumulator identifies), unifies every pair, and is absorbed by every
no-sortable-ranged substitution that absorbs the accumulator and
unifies every pair.  The invariant for a single recursive `unify` call
at the given fuel is taken as a hypothesis. -/
theorem unifyFold_spec (fuel : Nat)
    (IH : ∀ p q σ', legalTerm p = true → legalTerm q = true →
      unify fuel p q = .ok σ' →
      (((σ'.map Prod.fst).Nodup ∧ (∀ e ∈ σ', legalTerm e.2 = true)) ∧
        apply p σ' = apply q σ' ∧
        (∀ τ : Subst, (∀ e ∈ τ, noSortable e.2 = true) →
          apply p τ = apply q τ → Absorbs τ σ'))) :
    ∀ (prs : List (Node × Node)) (rv σ : Subst),
      (∀ pr ∈ prs, legalTerm pr.1 = true ∧ legalTerm pr.2 = true) →
      (rv.map Prod.fst).Nodup → (∀ e ∈ rv, legalTerm e.2 = true) →
      prs.foldlM (unifyFoldF fuel) rv = .ok σ →
      ((σ.map Prod.fst).Nodup ∧ (∀ e ∈ σ, legalTerm e.2 = true)) ∧
      (∀ a b : Node, legalTerm a = true → legalTerm b = true →
        apply a rv = apply b rv → apply a σ = apply b σ) ∧
      (∀ pr ∈ prs, apply pr.1 σ = apply pr.2 σ) ∧
      (∀ τ : Subst, (∀ e ∈ τ, noSortable e.2 = true) → Absorbs τ rv →
        (∀ pr ∈ prs, apply pr.1 τ = apply pr.2 τ) → Absorbs τ σ) := by
  intro prs
  induction prs with
  | nil =>
    intro rv σ hprs hnrv hrrv hok
    have hσ : rv = σ := Except.ok.inj hok
    subst hσ
    refine ⟨⟨hnrv, hrrv⟩, ?_, ?_, ?_⟩
    · intro a b _ _ hab; exact hab
    · intro pr hpr; simp at hpr
    · intro τ _ habs _; exact habs
  | cons pr rest ih =>
    intro rv σ hprs hnrv hrrv hok
    rw [unifyFoldF_step] at hok
    cases hu : unify fuel (pr.1.apply rv) (pr.2.apply rv) with
    | error err =>
      rw [hu] at hok
      exact Except.noConfusion hok
    | ok μ =>
      rw [hu] at hok
      have hx : legalTerm pr.1 = true := (hprs pr (by simp)).1
      have hy : legalTerm pr.2 = true := (hprs pr (by simp)).2
      have hx' : legalTerm (pr.1.apply rv) = true :=
        legalTerm_apply _ rv hx hrrv
      have hy' : legalTerm (pr.2.apply rv) = true :=
        legalTerm_apply _ rv hy hrrv
      obtain ⟨⟨hnμ, hrμ⟩, hμsound, hμmax⟩ := IH _ _ μ hx' hy' hu
      have hnrv' : ((compose [rv, μ]).map Prod.fst).Nodup :=
        compose_two_nodup rv μ hnrv hnμ
      have hrrv' : ∀ e ∈ compose [rv, μ], legalTerm e.2 = true :=
        compose_two_ranges_legal rv μ hrrv hrμ
      obtain ⟨hbag, href, hsound, hmax⟩ := ih (compose [rv, μ]) σ
        (fun pr' hpr' => hprs pr' (by simp [hpr'])) hnrv' hrrv' hok
      refine ⟨hbag, ?_, ?_, ?_⟩
      · intro a b ha hb hab
        apply href a b ha hb
        rw [apply_compose_of_legal a rv μ ha hrrv hrμ hnrv hnμ,
          apply_compose_of_legal b rv μ hb hrrv hrμ hnrv hnμ, hab]
      · intro pr' hpr'
        rcases List.mem_cons.mp hpr' with h1 | h2
        · rw [h1]
          apply href pr.1 pr.2 hx hy
          rw [apply_compose_of_legal pr.1 rv μ hx hrrv hrμ hnrv hnμ,
            apply_compose_of_legal pr.2 rv μ hy hrrv hrμ hnrv hnμ]
          exact hμsound
        · exact hsound pr' h2
      · intro τ hτ habs hτuni
        refine hmax τ hτ ?_ ?_
        · refine absorbs_compose τ rv μ hrrv hrμ hnrv hnμ hτ habs ?_
          refine hμmax τ hτ ?_
          rw [absorbs_apply τ rv hrrv hτ habs _ hx,
            absorbs_apply τ rv hrrv hτ habs _ hy]
          exact hτuni pr (by simp)
        · intro pr' hpr'
          exact hτuni pr' (by simp [hpr'])

/-- The full invariant of `unify` on legal equality-free terms and
atoms, by induction on the fuel: every successful run returns a
key-distinct substitution with legal replacements that unifies its
inputs and is absorbed by every no-sortable-ranged unifier of the
inputs. -/
theorem unify_spec :
    ∀ (fuel : Nat) (p q : Node) (σ : Subst),
      legalTA p = true → legalTA q = true →
      unify fuel p q = .ok σ → UnifySpec p q σ := by
  intro fuel
  induction fuel with
  | zero => intro p q σ _ _ hok; exact Except.noConfusion hok
  | succ fuel ihf =>
    intro p q σ hp hq hok
    have IH : ∀ p' q' σ', legalTerm p' = true → legalTerm q' = true →
        unify fuel p' q' = .ok σ' →
        (((σ'.map Prod.fst).Nodup ∧ (∀ e ∈ σ', legalTerm e.2 = true)) ∧
          apply p' σ' = apply q' σ' ∧
          (∀ τ : Subst, (∀ e ∈ τ, noSortable e.2 = true) →
            apply p' τ = apply q' τ → Absorbs τ σ')) := by
      intro p' q' σ' hp' hq' hok'
      obtain ⟨⟨hn, hta, hterm⟩, hsound, hmax⟩ :=
        ihf p' q' σ' (legalTA_of_legalTerm _ hp')
          (legalTA_of_legalTerm _ hq') hok'
      exact ⟨⟨hn, hterm hp' hq'⟩, hsound, hmax⟩
    rw [unify_succ_eq] at hok
    by_cases h1 : (!(p.is_term || p.is_atom)) = true
    · rw [if_pos h1] at hok; exact Except.noConfusion hok
    rw [if_neg h1] at hok
    by_cases h2 : (!(q.is_term || q.is_atom)) = true
    · rw [if_pos h2] at hok; exact Except.noConfusion hok
    rw [if_neg h2] at hok
    by_cases h3 : (p.is_constant && q.is_constant) = true
    · rw [if_pos h3] at hok
      rw [Bool.and_eq_true] at h3
      by_cases h4 : (p.value == q.value) = true
      · rw [if_pos h4] at hok
        have hσ : ([] : Subst) = σ := Except.ok.inj hok
        subst hσ
        obtain ⟨a, rfl⟩ := legalTA_constant_shape p hp h3.1
        obtain ⟨b, rfl⟩ := legalTA_constant_shape q hq h3.2
        have hab : a = b := by
          have hv := (tvalue_beq_iff _ _).mp h4
          simp only [value, Sum.inl.injEq] at hv
          exact hv
        subst hab
        refine ⟨⟨by simp, by simp, ?_⟩, rfl, ?_⟩
        · intro _ _ e he; simp at he
        · intro τ _ _
          exact absorbs_nil τ
      · rw [if_neg h4] at hok; exact Except.noConfusion hok
    rw [if_neg h3] at hok
    by_cases h5 : p.is_variable = true
    · rw [if_pos h5] at hok
      by_cases h6 : p.occurs_in q = true
      · rw [if_pos h6] at hok; exact Except.noConfusion hok
      · rw [if_neg h6] at hok
        have hσ : [(p.value, q)] = σ := Except.ok.inj hok
        subst hσ
        obtain ⟨nm, rfl⟩ := legalTA_variable_shape p hp h5
        have hocc : occurs_in (Node.mk VARIABLE (.inl nm) []) q = false :=
          bool_eq_false_of_not h6
        have hkey : (Node.mk VARIABLE (.inl nm) []).value
            = (Sum.inl nm : TValue) := rfl
        rw [hkey]
        refine ⟨⟨by simp, ?_, ?_⟩, ?_, ?_⟩
        · intro e he
          obtain rfl := List.mem_singleton.mp he
          exact hq
        · intro _ hqt e he
          obtain rfl := List.mem_singleton.mp he
          exact hqt
        · exact unify_var_subst_sound nm q hq hocc
        · intro τ _ hτuni
          exact unify_var_subst_max nm q τ hτuni
    rw [if_neg h5] at hok
    by_cases h7 : q.is_variable = true
    · rw [if_pos h7] at hok
      by_cases h8 : q.occurs_in p = true
      · rw [if_pos h8] at hok; exact Except.noConfusion hok
      · rw [if_neg h8] at hok
        have hσ : [(q.value, p)] = σ := Except.ok.inj hok
        subst hσ
        obtain ⟨nm, rfl⟩ := legalTA_variable_shape q hq h7
        have hocc : occurs_in (Node.mk VARIABLE (.inl nm) []) p = false :=
          bool_eq_false_of_not h8
        have hkey : (Node.mk VARIABLE (.inl nm) []).value
            = (Sum.inl nm : TValue) := rfl
        rw [hkey]
        refine ⟨⟨by simp, ?_, ?_⟩, ?_, ?_⟩
        · intro e he
          obtain rfl := List.mem_singleton.mp he
          exact hp
        · intro hpt _ e he
          obtain rfl := List.mem_singleton.mp he
          exact hpt
        · exact (unify_var_subst_sound nm p hp hocc).symm
        · intro τ _ hτuni
          exact unify_var_subst_max nm p τ hτuni.symm
    rw [if_neg h7] at hok
    by_cases h9 : (p.type_ != q.type_ || !(p.value == q.value)
        || p.children.length != q.children.length) = true
    · rw [if_pos h9] at hok; exact Except.noConfusion hok
    rw [if_neg h9] at hok
    have h9f := bool_eq_false_of_not h9
    rw [Bool.or_eq_false_iff, Bool.or_eq_false_iff] at h9f
    obtain ⟨⟨hTf, hVf⟩, hLf⟩ := h9f
    have htype : p.type_ = q.type_ := eq_of_beq (bool_not_eq_false hTf)
    have hval : p.value = q.value := (tvalue_beq_iff _ _).mp
      (bool_not_eq_false hVf)
    have hlen : p.children.length = q.children.length :=
      eq_of_beq (bool_not_eq_false hLf)
    have hvfp : p.is_variable = false := bool_eq_false_of_not h5
    have hvfq : q.is_variable = false := bool_eq_false_of_not h7
    cases p with
    | mk tp vp cp =>
      cases q with
      | mk tq vq cq =>
        simp only [type_] at htype
        subst htype
        simp only [value] at hval
        subst hval
        cases vp with
        | inr m =>
          rw [legalTA, legalTerm_inr_false, legalAtom_inr_false] at hp
          exact absurd hp (by simp)
        | inl s =>
          simp only [children] at hlen hok
          obtain ⟨hcp, _⟩ := legalTA_elim tp s cp hp
          obtain ⟨hcq, _⟩ := legalTA_elim tp s cq hq
          have hpairs : ∀ pr ∈ cp.zip cq,
              legalTerm pr.1 = true ∧ legalTerm pr.2 = true := by
            intro pr hpr
            obtain ⟨hx, hy⟩ := List.of_mem_zip hpr
            exact ⟨allLegalTerm_mem hcp _ hx, allLegalTerm_mem hcq _ hy⟩
          obtain ⟨hbag, href, hsound, hmax⟩ :=
            unifyFold_spec fuel IH (cp.zip cq) [] σ hpairs (by simp)
              (by intro e he; simp at he) hok
          have hnsp : noSortable (Node.mk tp (.inl s) cp) = true :=
            noSortable_of_legalTA _ hp
          have hnsq : noSortable (Node.mk tp (.inl s) cq) = true :=
            noSortable_of_legalTA _ hq
          have hσns : ∀ e ∈ σ, noSortable e.2 = true := by
            intro e he
            exact noSortable_of_legalTerm _ (hbag.2 e he)
          refine ⟨⟨hbag.1, ?_, ?_⟩, ?_, ?_⟩
          · intro e he
            exact legalTA_of_legalTerm _ (hbag.2 e he)
          · intro _ _
            exact hbag.2
          · rw [apply_nonvar_ns_eq tp s cp σ hnsp hσns hvfp,
              apply_nonvar_ns_eq tp s cq σ hnsq hσns hvfq]
            have hkids : applyList cp σ = applyList cq σ := by
              rw [applyList_eq_map, applyList_eq_map]
              exact map_eq_of_zip _ cp cq hlen hsound
            rw [hkids]
          · intro τ hτ hτuni
            refine hmax τ hτ (absorbs_nil τ) ?_
            have h1' := hτuni
            rw [apply_nonvar_ns_eq tp s cp τ hnsp hτ hvfp,
              apply_nonvar_ns_eq tp s cq τ hnsq hτ hvfq] at h1'
            have h2' : cp.map (fun k => apply k τ)
                = cq.map (fun k => apply k τ) := by
              have h3' := h1'
              simp only [Node.mk.injEq] at h3'
              rw [← applyList_eq_map, ← applyList_eq_map]
              exact h3'.2.2
            intro pr hpr
            exact zip_eq_of_map _ cp cq h2' pr hpr

/-- Failure completeness of `unify`'s child fold: if the fold over legal
term pairs fails with `NotUnifiable`, then no no-sortable-ranged
substitution that absorbs the accumulator unifies all the pairs.  The
completeness of a single recursive `unify` call at the given fuel is
taken as a hypothesis. -/
theorem unifyFold_complete (fuel : Nat)
    (IHcomp : ∀ p' q', legalTerm p' = true → legalTerm q' = true →
      unify fuel p' q' = .error .notUnifiable →
      ∀ τ : Subst, (∀ e ∈ τ, noSortable e.2 = true) →
        apply p' τ ≠ apply q' τ) :
    ∀ (prs : List (Node × Node)) (rv : Subst),
      (∀ pr ∈ prs, legalTerm pr.1 = true ∧ legalTerm pr.2 = true) →
      (rv.map Prod.fst).Nodup → (∀ e ∈ rv, legalTerm e.2 = true) →
      prs.foldlM (unifyFoldF fuel) rv = .error .notUnifiable →
      ∀ τ : Subst, (∀ e ∈ τ, noSortable e.2 = true) → Absorbs τ rv →
        ¬ (∀ pr ∈ prs, apply pr.1 τ = apply pr.2 τ) := by
  intro prs
  induction prs with
  | nil =>
    intro rv _ _ _ hbad
    exact absurd hbad (fun hc => Except.noConfusion hc)
  | cons pr rest ih =>
    intro rv hprs hnrv hrrv hbad τ hτ habs hall
    rw [unifyFoldF_step] at hbad
    have hx : legalTerm pr.1 = true := (hprs pr (by simp)).1
    have hy : legalTerm pr.2 = true := (hprs pr (by simp)).2
    have hx' : legalTerm (pr.1.apply rv) = true :=
      legalTerm_apply _ rv hx hrrv
    have hy' : legalTerm (pr.2.apply rv) = true :=
      legalTerm_apply _ rv hy hrrv
    have hτpair : apply (pr.1.apply rv) τ = apply (pr.2.apply rv) τ := by
      rw [absorbs_apply τ rv hrrv hτ habs _ hx,
        absorbs_apply τ rv hrrv hτ habs _ hy]
      exact hall pr (by simp)
    cases hu : unify fuel (pr.1.apply rv) (pr.2.apply rv) with
    | error err =>
      rw [hu] at hbad
      have herr : err = .notUnifiable := Except.error.inj hbad
      subst herr
      exact IHcomp _ _ hx' hy' hu τ hτ hτpair
    | ok μ =>
      rw [hu] at hbad
      obtain ⟨⟨hnμ, _, htermμ⟩, _, hμmax⟩ :=
        unify_spec fuel _ _ μ (legalTA_of_legalTerm _ hx')
          (legalTA_of_legalTerm _ hy') hu
      have hrμ := htermμ hx' hy'
      have habs' : Absorbs τ (compose [rv, μ]) :=
        absorbs_compose τ rv μ hrrv hrμ hnrv hnμ hτ habs
          (hμmax τ hτ hτpair)
      exact ih (compose [rv, μ])
        (fun pr' hpr' => hprs pr' (by simp [hpr']))
        (compose_two_nodup rv μ hnrv hnμ)
        (compose_two_ranges_legal rv μ hrrv hrμ)
        hbad τ hτ habs'
        (fun pr' hpr' => hall pr' (by simp [hpr']))

/-- Failure completeness of `unify` on legal equality-free terms and
atoms: a `NotUnifiable` outcome is genuine — no substitution with
no-sortable replacements unifies the two inputs. -/
theorem unify_complete :
    ∀ (fuel : Nat) (p q : Node),
      legalTA p = true → legalTA q = true →
      unify fuel p q = .error .notUnifiable →
      ∀ τ : Subst, (∀ e ∈ τ, noSortable e.2 = true) →
        apply p τ ≠ apply q τ := by
  intro fuel
  induction fuel with
  | zero =>
    intro p q _ _ hbad τ _ _
    exact absurd (Except.error.inj hbad) (by decide)
  | succ fuel ihf =>
    intro p q hp hq hbad τ hτ heq
    have IHcomp : ∀ p' q', legalTerm p' = true → legalTerm q' = true →
        unify fuel p' q' = .error .notUnifiable →
        ∀ τ' : Subst, (∀ e ∈ τ', noSortable e.2 = true) →
          apply p' τ' ≠ apply q' τ' := by
      intro p' q' hp' hq' hbad' τ' hτ'
      exact ihf p' q' (legalTA_of_legalTerm _ hp')
        (legalTA_of_legalTerm _ hq') hbad' τ' hτ'
    rw [unify_succ_eq] at hbad
    by_cases h1 : (!(p.is_term || p.is_atom)) = true
    · rw [if_pos h1] at hbad
      exact absurd (Except.error.inj hbad) (by decide)
    rw [if_neg h1] at hbad
    by_cases h2 : (!(q.is_term || q.is_atom)) = true
    · rw [if_pos h2] at hbad
      exact absurd (Except.error.inj hbad) (by decide)
    rw [if_neg h2] at hbad
    by_cases h3 : (p.is_constant && q.is_constant) = true
    · rw [if_pos h3] at hbad
      rw [Bool.and_eq_true] at h3
      by_cases h4 : (p.value == q.value) = true
      · rw [if_pos h4] at hbad; exact Except.noConfusion hbad
      · rw [if_neg h4] at hbad
        obtain ⟨a, rfl⟩ := legalTA_constant_shape p hp h3.1
        obtain ⟨b, rfl⟩ := legalTA_constant_shape q hq h3.2
        rw [apply_nonvar_ns_eq CONSTANT a [] τ
            (noSortable_of_legalTA _ hp) hτ rfl,
          apply_nonvar_ns_eq CONSTANT b [] τ
            (noSortable_of_legalTA _ hq) hτ rfl] at heq
        simp only [Node.mk.injEq, Sum.inl.injEq] at heq
        obtain ⟨-, hab, -⟩ := heq
        subst hab
        exact h4 (tvalue_beq_self _)
    rw [if_neg h3] at hbad
    by_cases h5 : p.is_variable = true
    · rw [if_pos h5] at hbad
      by_cases h6 : p.occurs_in q = true
      · obtain ⟨nm, rfl⟩ := legalTA_variable_shape p hp h5
        have hlt := occurs_size q nm τ hq hτ h6
        rw [heq] at hlt
        exact absurd hlt (lt_irrefl _)
      · rw [if_neg h6] at hbad; exact Except.noConfusion hbad
    rw [if_neg h5] at hbad
    by_cases h7 : q.is_variable = true
    · rw [if_pos h7] at hbad
      by_cases h8 : q.occurs_in p = true
      · obtain ⟨nm, rfl⟩ := legalTA_variable_shape q hq h7
        have hlt := occurs_size p nm τ hp hτ h8
        rw [heq] at hlt
        exact absurd hlt (lt_irrefl _)
      · rw [if_neg h8] at hbad; exact Except.noConfusion hbad
    rw [if_neg h7] at hbad
    have hvfp : p.is_variable = false := bool_eq_false_of_not h5
    have hvfq : q.is_variable = false := bool_eq_false_of_not h7
    cases p with
    | mk tp vp cp =>
      cases q with
      | mk tq vq cq =>
        cases vp with
        | inr m =>
          rw [legalTA, legalTerm_inr_false, legalAtom_inr_false] at hp
          exact absurd hp (by simp)
        | inl sp =>
          cases vq with
          | inr m =>
            rw [legalTA, legalTerm_inr_false, legalAtom_inr_false] at hq
            exact absurd hq (by simp)
          | inl sq =>
            rw [apply_nonvar_ns_eq tp sp cp τ
                (noSortable_of_legalTA _ hp) hτ hvfp,
              apply_nonvar_ns_eq tq sq cq τ
                (noSortable_of_legalTA _ hq) hτ hvfq] at heq
            simp only [Node.mk.injEq, Sum.inl.injEq] at heq
            obtain ⟨htp, hsv, hck⟩ := heq
            subst htp
            subst hsv
            have hlen : cp.length = cq.length := by
              have := congrArg List.length hck
              rw [applyList_length, applyList_length] at this
              exact this
            by_cases h9 : ((Node.mk tp (.inl sp) cp).type_ !=
                  (Node.mk tp (.inl sp) cq).type_
                || !((Node.mk tp (.inl sp) cp).value ==
                  (Node.mk tp (.inl sp) cq).value)
                || (Node.mk tp (.inl sp) cp).children.length !=
                  (Node.mk tp (.inl sp) cq).children.length) = true
            · -- the mismatch test cannot fire: heads and arity agree
              exfalso
              rw [Bool.or_eq_true, Bool.or_eq_true] at h9
              rcases h9 with (hT | hV) | hL
              · have e : ((Node.mk tp (.inl sp) cp).type_ !=
                    (Node.mk tp (.inl sp) cq).type_) = (tp != tp) := rfl
                rw [e] at hT
                simp at hT
              · have e : ((Node.mk tp (.inl sp) cp).value ==
                    (Node.mk tp (.inl sp) cq).value) =
                    ((Sum.inl sp : TValue) == Sum.inl sp) := rfl
                rw [e, tvalue_beq_self] at hV
                simp at hV
              · have e : ((Node.mk tp (.inl sp) cp).children.length !=
                    (Node.mk tp (.inl sp) cq).children.length) =
                    (cp.length != cq.length) := rfl
                rw [e, hlen] at hL
                simp at hL
            · rw [if_neg h9] at hbad
              simp only [children] at hbad
              obtain ⟨hcp, _⟩ := legalTA_elim tp sp cp hp
              obtain ⟨hcq, _⟩ := legalTA_elim tp sp cq hq
              have hpairs : ∀ pr ∈ cp.zip cq,
                  legalTerm pr.1 = true ∧ legalTerm pr.2 = true := by
                intro pr hpr
                obtain ⟨hx, hy⟩ := List.of_mem_zip hpr
                exact ⟨allLegalTerm_mem hcp _ hx, allLegalTerm_mem hcq _ hy⟩
              have hall : ∀ pr ∈ cp.zip cq,
                  apply pr.1 τ = apply pr.2 τ := by
                have h2' : cp.map (fun k => apply k τ)
                    = cq.map (fun k => apply k τ) := by
                  rw [← applyList_eq_map, ← applyList_eq_map]
                  exact hck
                intro pr hpr
                exact zip_eq_of_map _ cp cq h2' pr hpr
              exact unifyFold_complete fuel IHcomp (cp.zip cq) []
                hpairs (by simp) (by intro e he; simp at he)
                hbad τ hτ (absorbs_nil τ) hall

end Unification

namespace Grammar

theorem anyHasPrivate_eq_false (c : List Node)
    (ih : ∀ k ∈ c, hasPrivateSymbols k = false) :
    anyHasPrivate c = false := by
  induction c with
  | nil => rfl
  | cons a as iha =>
    rw [anyHasPrivate, ih a (by simp), iha (fun k hk => ih k (by simp [hk]))]
    rfl

theorem hasPrivateSymbols_eq_false : ∀ n, hasPrivateSymbols n = false := by
  intro n
  induction n using Node.indMem with
  | h t v c ihc ihv =>
    cases v with
    | inl s =>
      have e : hasPrivateSymbols (Node.mk t (.inl s) c) =
          (if isPrivateSymbol (Node.mk t (.inl s) c) then false
           else false || anyHasPrivate c) := rfl
      rw [e]
      split
      · rfl
      · rw [anyHasPrivate_eq_false c ihc]; rfl
    | inr m =>
      have e : hasPrivateSymbols (Node.mk t (.inr m) c) =
          (if isPrivateSymbol (Node.mk t (.inr m) c) then false
           else hasPrivateSymbols m || anyHasPrivate c) := rfl
      rw [e]
      split
      · rfl
      · rw [ihv m rfl, anyHasPrivate_eq_false c ihc]; rfl

end Grammar

namespace Serialization

theorem loadValue_dump : ∀ n, loadValue (dumpNode false n) = some (.inr n) := by
  intro n
  induction n using Node.indMem with
  | h t v c ihc ihv =>
    have hlist : loadList (dumpList false c) = some c := by
      clear ihv
      induction c with
      | nil => rfl
      | cons k ks ihk =>
        have h1 := ihc k (by simp)
        have h2 := ihk (fun j hj => ihc j (by simp [hj]))
        simp only [dumpList, loadList]
        rw [h1, h2]
    cases v with
    | inl s =>
      cases c with
      | nil => rfl
      | cons k ks =>
        have e1 : dumpNode false (Node.mk t (.inl s) (k :: ks)) =
            .dict [(t, .dict [("Value", .str s),
              ("Children", .list (dumpList false (k :: ks)))])] := rfl
        rw [e1]
        simp only [loadValue, loadDict]
        rw [hlist]
        rfl
    | inr m =>
      have hm := ihv m rfl
      cases c with
      | nil =>
        have e1 : dumpNode false (Node.mk t (.inr m) []) =
            .dict [(t, .dict [("Value", dumpNode false m)])] := rfl
        rw [e1]
        simp only [loadValue, loadDict]
        rw [hm]
        rfl
      | cons k ks =>
        have e1 : dumpNode false (Node.mk t (.inr m) (k :: ks)) =
            .dict [(t, .dict [("Value", dumpNode false m),
              ("Children", .list (dumpList false (k :: ks)))])] := rfl
        rw [e1]
        simp only [loadValue, loadDict]
        rw [hm, hlist]
        rfl

theorem loads_dumps (n : Node) :
    loads (dumps n false) = some (Node.normalize n) := by
  have h := loadValue_dump n
  cases hd : dumpNode false n with
  | str s => rw [hd] at h; simp [loadValue] at h
  | list l => rw [hd] at h; simp [loadValue] at h
  | dict d =>
    rw [hd] at h
    simp only [loadValue] at h
    show loads (dumpNode false n) = _
    rw [hd]
    show (loadDict d).map Node.normalize = _
    cases hld : loadDict d with
    | none => rw [hld] at h; exact absurd h (by simp)
    | some m =>
      rw [hld] at h
      simp only [Option.map, Option.some.injEq, Sum.inr.injEq] at h
      rw [h]
      rfl

end Serialization

/-! ## Claim theorems -/

/-- C9: the private-symbol rejection in `grammar.parse` never fires:
`_has_private_symbols` returns `False` on every node (its branch for a
private symbol returns `False` instead of `True`), even though
`_is_private_symbol` correctly recognizes the parse tree of `_P` as
private.  So `parse` returns underscore-prefixed symbols instead of
raising. -/
theorem c9_private_symbol_check_never_fires :
    (∀ n : Node, Grammar.hasPrivateSymbols n = false) ∧
    Grammar.isPrivateSymbol Ex.privP = true :=
  ⟨Grammar.hasPrivateSymbols_eq_false, by decide⟩

/-- C5: the `AtomicFormula` parse action for `=` builds a node with
`type_ = FUNCTION` (not `PREDICATE`), so `is_equality` rejects every parsed
equality atom and the parsed equality is not even a well-formed formula;
`A != B` parses to the negation of that same function-typed node. -/
theorem c5_equality_parsed_as_function :
    (∀ ops : List Node,
      (Grammar.parseEquality ops).type_ = FUNCTION ∧
      (Grammar.parseEquality ops).is_predicate = false ∧
      (Grammar.parseEquality ops).is_equality = false ∧
      Grammar.parseInequality ops =
        Node.mk FORMULA (.inl NEGATION) [Grammar.parseEquality ops]) ∧
    (Grammar.parseEquality [Ex.cA, Ex.cB]).is_formula = false ∧
    Node.is_equality (Node.mk PREDICATE (.inl EQUALITY) [Ex.cA, Ex.cB]) = true :=
  ⟨fun ops => ⟨rfl, rfl, rfl, rfl⟩, by decide, by decide⟩

/-- C7 counterexample: serializing and deserializing the non-canonical
conjunction `And(b, a)` returns its canonical form `And(a, b)`, not the
identical node (`loads` normalizes). -/
theorem c7_roundtrip_cex :
    Serialization.loads (Serialization.dumps Ex.andBA false) ≠
      some Ex.andBA := by
  decide

/-- C7 (amended): for every node `n`, `loads(dumps(n, compact=False))`
returns `normalize(n)`; in particular the round trip is the identity
exactly on canonical nodes. -/
theorem c7_roundtrip_normalize :
    ∀ n : Node, Serialization.loads (Serialization.dumps n false) =
      some (Node.normalize n) :=
  Serialization.loads_dumps

/-- C8 counterexample: the canonical single-child conjunction `And(f(x))`
(it is its own normal form) is collapsed by `denormalize` to `f(x)`, so
`normalize(denormalize(n)) ≠ normalize(n) = n`. -/
theorem c8_denormalize_cex :
    Node.normalize (Node.denormalize Ex.andSingle) ≠
        Node.normalize Ex.andSingle ∧
      Node.normalize Ex.andSingle = Ex.andSingle := by
  constructor
  · decide
  · decide

/-- C8 (amended): for every node whose foldable nodes (`And`, `Or`,
`Implies`, `Equals`, equality) all have at least two children — the legal
arity of those operators — `normalize(denormalize(φ)) = normalize(φ)`, and
the composition is the identity on canonical such nodes. -/
theorem c8_denormalize_left_inverse :
    ∀ φ : Node, Node.foldableArityOk φ = true →
      Node.normalize (Node.denormalize φ) = Node.normalize φ ∧
      (Node.normalize φ = φ → Node.normalize (Node.denormalize φ) = φ) := by
  intro φ h
  refine ⟨Node.normalize_denormalize φ h, fun hc => ?_⟩
  rw [Node.normalize_denormalize φ h, hc]

/-- C8 witness: the amended claim applied to `f(x) & f(y)`. -/
theorem c8_denormalize_left_inverse_witness :
    Node.foldableArityOk Ex.andFxFy = true ∧
    Node.normalize (Node.denormalize Ex.andFxFy) = Node.normalize Ex.andFxFy :=
  ⟨by decide, (c8_denormalize_left_inverse Ex.andFxFy (by decide)).1⟩

/-- C3 counterexample: for `t = And(f(x), !f(y))`, `r = {x↦z}`,
`s = {z↦y}`, the two sides differ: sorting inside `apply` is stable, and
the intermediate sort of `apply(t, r)` orders the key-equal literals
`f(…)`/`!f(…)` differently from the one-pass application. -/
theorem c3_compose_cex :
    Node.apply Ex.andFxNotFy (Unification.compose [Ex.rXZ, Ex.sZY]) ≠
      Node.apply (Node.apply Ex.andFxNotFy Ex.rXZ) Ex.sZY := by
  decide

/-- C3 (amended): for every legally-shaped term `t` (constants and
variables childless, functions symbol-headed — the data model's legal
shapes) and substitutions `r`, `s` with distinct keys mapping variables to
legally-shaped terms (the substitution type of the source, whose
`_compose` asserts term replacements),
`apply(t, compose(r, s)) = apply(apply(t, r), s)`.  On formulas the law
fails because `apply` re-sorts commutative nodes (see the counterexample).
-/
theorem c3_compose_apply :
    ∀ (t : Node) (r s : Subst), Node.legalTerm t = true →
      (∀ p ∈ r, Node.legalTerm p.2 = true) →
      (∀ p ∈ s, Node.legalTerm p.2 = true) →
      (r.map Prod.fst).Nodup → (s.map Prod.fst).Nodup →
      Node.apply t (Unification.compose [r, s]) =
        Node.apply (Node.apply t r) s :=
  Unification.apply_compose_of_legal

/-- C3 witness: the amended claim at `t = x`, `r = {x↦z}`, `s = {z↦y}`. -/
theorem c3_compose_apply_witness :
    (Node.legalTerm Ex.vX = true ∧
     (∀ p ∈ Ex.rXZ, Node.legalTerm p.2 = true) ∧
     (∀ p ∈ Ex.sZY, Node.legalTerm p.2 = true) ∧
     (Ex.rXZ.map Prod.fst).Nodup ∧ (Ex.sZY.map Prod.fst).Nodup) ∧
    Node.apply Ex.vX (Unification.compose [Ex.rXZ, Ex.sZY]) =
      Node.apply (Node.apply Ex.vX Ex.rXZ) Ex.sZY :=
  ⟨⟨by decide,
    by intro p hp; rcases List.mem_singleton.mp hp with rfl; decide,
    by intro p hp; rcases List.mem_singleton.mp hp with rfl; decide,
    by decide, by decide⟩,
   c3_compose_apply Ex.vX Ex.rXZ Ex.sZY (by decide)
     (by intro p hp; rcases List.mem_singleton.mp hp with rfl; decide)
     (by intro p hp; rcases List.mem_singleton.mp hp with rfl; decide)
     (by decide) (by decide)⟩

/-- C2 counterexample: `x` (a term) and the equality atom
`_Equality(b, a)` (an atom) unify with `σ = {x ↦ _Equality(b, a)}`, yet
`apply(x, σ)` is the raw stored atom `_Equality(b, a)` while
`apply(_Equality(b, a), σ)` re-sorts the commutative equality's
arguments to `_Equality(a, b)`: the two results are not syntactically
equal, refuting the claim as stated for terms and atoms in general. -/
theorem c2_unify_cex :
    Ex.vX.is_term = true ∧ Ex.eqBA.is_atom = true ∧
    Unification.unify 10 Ex.vX Ex.eqBA = .ok [(Sum.inl "x", Ex.eqBA)] ∧
    Node.apply Ex.vX [(Sum.inl "x", Ex.eqBA)] ≠
      Node.apply Ex.eqBA [(Sum.inl "x", Ex.eqBA)] :=
  ⟨rfl, rfl, rfl, by decide⟩

/-- C2 (amended): on legally-shaped equality-free terms and atoms
(constants and variables childless symbol leaves, functions with at
least one term argument, predicates other than the equality sentinel
with at least one term argument), every successful `unify(p, q) = σ`
satisfies `apply(p, σ) = apply(q, σ)`, and σ is most general: every
unifier τ of p and q whose replacements contain no sortable node — in
particular every unifier built from legal equality-free terms and
atoms — is an instance of σ (it factors through σ pointwise on
variables). -/
theorem c2_unify_sound_most_general (fuel : Nat) (p q : Node) (σ : Subst)
    (hp : Node.legalTA p = true) (hq : Node.legalTA q = true)
    (hok : Unification.unify fuel p q = .ok σ) :
    Node.apply p σ = Node.apply q σ ∧
    (∀ τ : Subst, (∀ e ∈ τ, Node.noSortable e.2 = true) →
      Node.apply p τ = Node.apply q τ →
      ∃ δ : Subst, ∀ name : String,
        Node.apply (Node.mk VARIABLE (.inl name) []) τ =
          Node.apply (Node.apply (Node.mk VARIABLE (.inl name) []) σ) δ) := by
  obtain ⟨_, hsound, hmax⟩ := Unification.unify_spec fuel p q σ hp hq hok
  exact ⟨hsound, fun τ hτ hτuni => ⟨τ, hmax τ hτ hτuni⟩⟩

/-- C2 witness: the amended claim applied to the atoms `f(x)` and
`f(P)`, which unify with `{x ↦ P}`. -/
theorem c2_unify_sound_most_general_witness :
    Node.apply Ex.fX [(Sum.inl "x", Ex.cP)] =
      Node.apply Ex.fP [(Sum.inl "x", Ex.cP)] :=
  (c2_unify_sound_most_general 5 Ex.fX Ex.fP [(Sum.inl "x", Ex.cP)]
    (by decide) (by decide) rfl).1

/-- C10 counterexample: `unify` raises `NotUnifiable` on the equality
atoms `_Equality(A, B)` and `_Equality(B, A)`, although the empty
substitution already unifies them (`apply` sorts both into the same
canonical atom).  So between equality atoms, `NotUnifiable` is not
confined to genuine unification failures: the child fold compares the
stored operands positionally while `apply` compares them up to the
commutative re-sort. -/
theorem c10_not_unifiable_cex :
    Ex.eqABc.is_atom = true ∧ Ex.eqBAc.is_atom = true ∧
    Unification.unify 10 Ex.eqABc Ex.eqBAc = .error .notUnifiable ∧
    Node.apply Ex.eqABc [] = Node.apply Ex.eqBAc [] :=
  ⟨rfl, rfl, rfl, by decide⟩

/-- C10 (amended): (1) if either argument is neither a term nor an
atom, `unify` fails with the `TypeError` outcome; (2) a `NotUnifiable`
outcome occurs only when both arguments are terms or atoms; (3) on
legally-shaped equality-free terms and atoms every `NotUnifiable` is
genuine: no substitution with no-sortable replacements unifies the two
arguments.  (Positive fuel in (1) reflects that the fuel-exhaustion
outcome is an artifact of the embedding, not of the source.) -/
theorem c10_unify_error_discipline :
    (∀ (fuel : Nat) (p q : Node),
      ((p.is_term || p.is_atom) = false ∨ (q.is_term || q.is_atom) = false) →
      Unification.unify (fuel + 1) p q = .error .typeErr) ∧
    (∀ (fuel : Nat) (p q : Node),
      Unification.unify fuel p q = .error .notUnifiable →
      (p.is_term || p.is_atom) = true ∧ (q.is_term || q.is_atom) = true) ∧
    (∀ (fuel : Nat) (p q : Node),
      Node.legalTA p = true → Node.legalTA q = true →
      Unification.unify fuel p q = .error .notUnifiable →
      ∀ τ : Subst, (∀ e ∈ τ, Node.noSortable e.2 = true) →
        Node.apply p τ ≠ Node.apply q τ) := by
  refine ⟨?_, ?_, Unification.unify_complete⟩
  · intro fuel p q h
    rcases h with hpb | hqb
    · rw [Unification.unify_succ_eq, hpb]
      rfl
    · rw [Unification.unify_succ_eq]
      by_cases hpg : (!(p.is_term || p.is_atom)) = true
      · rw [if_pos hpg]
      · rw [if_neg hpg, hqb]
        rfl
  · intro fuel p q hbad
    cases fuel with
    | zero => exact absurd (Except.error.inj hbad) (by decide)
    | succ fuel =>
      rw [Unification.unify_succ_eq] at hbad
      by_cases h1 : (!(p.is_term || p.is_atom)) = true
      · rw [if_pos h1] at hbad
        exact absurd (Except.error.inj hbad) (by decide)
      · rw [if_neg h1] at hbad
        by_cases h2 : (!(q.is_term || q.is_atom)) = true
        · rw [if_pos h2] at hbad
          exact absurd (Except.error.inj hbad) (by decide)
        · exact ⟨bool_not_eq_false (bool_eq_false_of_not h1),
            bool_not_eq_false (bool_eq_false_of_not h2)⟩

/-- C10 witness: `unify` of the formula `f(x) & f(y)` against the atom
`f(x)` raises `TypeError`, and the `NotUnifiable` between the distinct
constants `A` and `B` is genuine (no substitution identifies them). -/
theorem c10_unify_error_discipline_witness :
    Unification.unify 3 Ex.andFxFy Ex.fX = .error .typeErr ∧
    Node.apply Ex.cA [] ≠ Node.apply Ex.cB [] :=
  ⟨c10_unify_error_discipline.1 2 Ex.andFxFy Ex.fX (Or.inl (by decide)),
   c10_unify_error_discipline.2.2 1 Ex.cA Ex.cB (by decide) (by decide) rfl
     [] (by intro e he; simp at he)⟩

/-- C4: as shipped, `to_cnf` can never return the claimed pair `(φ', ρ)`
— nor anything else.  `cnf.convert_to_cnf` raises on every input: its
fourth pass applies `standardize_variables`, whose first statement calls
the nonexistent method `Node.get_quantifier` (`AttributeError`, not
caught by the surrounding `except ValueError`), and the pipeline also
returns a single node rather than a pair where it would return.  On the
well-formed atom `f(P)` the error is precisely that `AttributeError`. -/
theorem c4_to_cnf_never_returns :
    (∀ (fuel : Nat) (φ : Node), ∃ e,
      Cnf.convert_to_cnf fuel φ = .error e) ∧
    Cnf.convert_to_cnf 9 Ex.fP = .error .attributeError :=
  ⟨Cnf.convert_to_cnf_error, rfl⟩

/-- C6: `infer([], g)` never returns the empty substitution.  The
clause-collection loop runs on `conclusion.negate()` before the
empty-premise check, and `f, subst = k.to_cnf()` raises for every `k`
(the draft `cnf.py` raises `AttributeError` inside the conversion, and
would hand back a single 3-field node — not an unpackable pair — where
it returned).  The statement quantifies over every possible behavior of
the unreachable saturation loop. -/
theorem c6_infer_empty_premises_crashes :
    (∀ (saturation : List Node → Node → Except Cnf.PyErr (Option Subst))
       (fuel : Nat) (g : Node), ∃ e,
      Inference.inferWith saturation fuel [] g = .error e) ∧
    Inference.inferWith (fun _ _ => .ok none) 9 [] Ex.fP =
      .error .attributeError :=
  ⟨fun saturation fuel g => Inference.inferWith_error saturation fuel [] g,
   rfl⟩

/-- C1: prover soundness holds only vacuously, and the design is
unsound.  First conjunct: `infer` raises on every input (its CNF phase
can never complete — see `convert_to_cnf`), for every possible behavior
of the unreachable saturation loop, so it never returns a substitution
at all and in particular never a false positive.  Second conjunct: the
empty-premise shortcut the source codes up (`return {}`,
inference.py:40-41) would be a false positive had the pipeline worked:
a Boolean valuation (the repository's own `Node.eval` semantics, as
`utils.truth_table` uses it) satisfies every premise of the empty set
yet falsifies the goal `f(P)`, so the empty set does not entail it. -/
theorem c1_prover_soundness_vacuous :
    (∀ (saturation : List Node → Node → Except Cnf.PyErr (Option Subst))
       (fuel : Nat) (premises : List Node) (g : Node), ∃ e,
      Inference.inferWith saturation fuel premises g = .error e) ∧
    (∃ env : String → Option Bool,
      (∀ p ∈ ([] : List Node), Inference.eval env 5 p = .ok true) ∧
      Inference.eval env 5 Ex.fP = .ok false) :=
  ⟨Inference.inferWith_error,
   ⟨fun _ => some false, fun p hp => absurd hp (by simp), rfl⟩⟩

end KB
